import Mathlib

/-!
Verification of the index-file update engine of the `run` command launcher
(`cmd.go`, `main.go`).  The index file is modelled as a list of characters
(Go works on UTF-8 bytes; all reasoning here is at the character level).
The Go standard-library pieces the engine relies on (`encoding/json`
streaming decode and `Marshal`, `strconv.Atoi`, the `path/filepath`
lexical functions) are modelled as executable Lean functions restricted to
the shapes the program reads and writes: JSON numbers are 64-bit integers
(the only numeric type in the record schema), object keys are matched
exactly, and unknown object fields are not accepted by the decoder model.
-/

deriving instance DecidableEq for Except

set_option maxRecDepth 1000000

set_option maxHeartbeats 1600000

/-- Characters the Go JSON scanner treats as insignificant whitespace. -/
def isWsChar (c : Char) : Bool :=
  c = ' ' || c = '\t' || c = '\n' || c = '\r'

/-- Model of the decoder skipping insignificant whitespace. -/
def skipWs (s : List Char) : List Char :=
  s.dropWhile isWsChar

/-- Decimal digit character for a value below ten. -/
def digitChar (n : Nat) : Char :=
  Char.ofNat (48 + n)

def isDigitChar (c : Char) : Bool :=
  48 ≤ c.toNat && c.toNat ≤ 57

/-- Lowercase hexadecimal digit character, as Go's JSON encoder emits. -/
def hexDigitChar (n : Nat) : Char :=
  if n < 10 then Char.ofNat (48 + n) else Char.ofNat (87 + n)

/-- Hexadecimal value of a digit character, accepting both cases. -/
def hexValOf (c : Char) : Option Nat :=
  if 48 ≤ c.toNat && c.toNat ≤ 57 then some (c.toNat - 48)
  else if 97 ≤ c.toNat && c.toNat ≤ 102 then some (c.toNat - 87)
  else if 65 ≤ c.toNat && c.toNat ≤ 70 then some (c.toNat - 55)
  else none

/-- Worker for the decimal rendering, structurally recursive on a fuel
bound so the kernel can evaluate it. -/
def natReprAux : Nat → Nat → List Char → List Char
  | 0, _, acc => acc
  | f + 1, n, acc =>
    if n < 10 then digitChar n :: acc
    else natReprAux f (n / 10) (digitChar (n % 10) :: acc)

/-- Decimal digits of a natural number, most significant first. -/
def natReprL (n : Nat) : List Char :=
  natReprAux (n + 1) n []

/-- Decimal rendering of an integer, as Go's `%d` and the JSON encoder emit. -/
def intReprL (n : Int) : List Char :=
  if n < 0 then '-' :: natReprL (-n).toNat else natReprL n.toNat

/-- Numeric value of a digit string, most significant first. -/
def digitsVal (l : List Char) : Nat :=
  l.foldl (fun a c => 10 * a + (c.toNat - 48)) 0

/-- Go's `int` is 64 bits wide on the supported platforms; both
`strconv.Atoi` and JSON decoding into an `int` field enforce this range. -/
def isInt64 (n : Int) : Bool :=
  -(2 ^ 63) ≤ n && n < 2 ^ 63

/-- Longest digit run at the head of the input, with the remainder. -/
def takeDigits : List Char → List Char × List Char
  | [] => ([], [])
  | c :: r =>
    if isDigitChar c then
      let p := takeDigits r
      (c :: p.1, p.2)
    else ([], c :: r)

/-! ## The record model (`jsonCmd`, `meta` from `main.go`) -/

/-- Embeds the `meta` struct: argument-count bounds of a command record. -/
structure meta' where
  MinNumArgs : Int
  MaxNumArgs : Int
deriving Repr, DecidableEq

/-- Embeds the `jsonCmd` struct: one record of the index file. -/
structure jsonCmd where
  Name : String
  Script : String
  Meta : meta'
deriving Repr, DecidableEq

/-- The Go zero value of `jsonCmd`, the state a fresh record starts in
before `json.Decode` fills it. -/
def zeroCmd : jsonCmd :=
  { Name := "", Script := "", Meta := { MinNumArgs := 0, MaxNumArgs := 0 } }

/-- A record whose argument bounds are representable in Go's `int`.  Any
record decoded from disk or built by Go code satisfies this by typing. -/
def validCmd (c : jsonCmd) : Bool :=
  isInt64 c.Meta.MinNumArgs && isInt64 c.Meta.MaxNumArgs

/-- The bounds invariant the specification states for records:
`minArgs ≥ 0`, and `maxArgs = -1` (unbounded) or `maxArgs ≥ minArgs`. -/
def boundsOk (c : jsonCmd) : Bool :=
  0 ≤ c.Meta.MinNumArgs &&
    (c.Meta.MaxNumArgs = -1 || c.Meta.MinNumArgs ≤ c.Meta.MaxNumArgs)

/-- Error values of the engine, collapsing Go's sentinel errors and
library error values into one inductive. `cmdNotFound` is `CmdNotFoundErr`,
`formatError` the `InvalidJsonErrTemplate` failures, `syntaxError` the
decoder/scanner errors propagated verbatim from `encoding/json`. -/
inductive GoErr where
  | formatError
  | syntaxError
  | cmdNotFound
  | wrongArgCount
  | atoiError
  | seekError
  | noSuchScript
  | renameFailed (src dst : String)
deriving Repr, DecidableEq

/-- On-disk state the engines touch: the index file's bytes and the
transient temporary file of the rewriter (`none` when absent). -/
structure FS where
  index : List Char
  tmp : Option (List Char)
deriving Repr, DecidableEq

/-! ## JSON encoding (model of `encoding/json.Marshal` on `jsonCmd`) -/

/-- Escape sequence for the unicode escape `\u00xx` of a byte value. -/
def uEscL (n : Nat) : List Char :=
  ['\\', 'u', '0', '0', hexDigitChar (n / 16), hexDigitChar (n % 16)]

/-- Encoding of one character inside a JSON string, following Go's
encoder: quote and backslash escaped, `\n`, `\r`, `\t` named, other
control characters as `\u00xx`, and the HTML-unsafe characters and the
line separators escaped as Go's default (HTML-escaping) encoder does. -/
def escapeChar (c : Char) : List Char :=
  if c = '"' then ['\\', '"']
  else if c = '\\' then ['\\', '\\']
  else if c = '\n' then ['\\', 'n']
  else if c = '\r' then ['\\', 'r']
  else if c = '\t' then ['\\', 't']
  else if c = '<' then uEscL 0x3c
  else if c = '>' then uEscL 0x3e
  else if c = '&' then uEscL 0x26
  else if c.toNat < 0x20 then uEscL c.toNat
  else if c.toNat = 0x2028 then ['\\', 'u', '2', '0', '2', '8']
  else if c.toNat = 0x2029 then ['\\', 'u', '2', '0', '2', '9']
  else [c]

/-- Encoding of the contents of a JSON string. -/
def escapeString (s : String) : List Char :=
  s.data.foldr (fun c acc => escapeChar c ++ acc) []

/-- Serialization of the `options` sub-object, fields in declaration
order as Go's `Marshal` emits them. -/
def marshalMeta (m : meta') : List Char :=
  "\x7b\"minNumArgs\":".data ++ intReprL m.MinNumArgs ++
    ",\"maxNumArgs\":".data ++ intReprL m.MaxNumArgs ++ ['\x7d']

/-- Serialization of one record, exactly the bytes `json.Marshal`
produces for a `jsonCmd` value: compact, fields in declaration order,
with the tag names of the struct. -/
def marshalCmd (c : jsonCmd) : List Char :=
  "\x7b\"commandName\":\"".data ++ escapeString c.Name ++
    "\",\"scriptName\":\"".data ++ escapeString c.Script ++
    "\",\"options\":".data ++ marshalMeta c.Meta ++ ['\x7d']

/-- Comma-separated serialization of a record list (array body). -/
def serializeBody : List jsonCmd → List Char
  | [] => []
  | [c] => marshalCmd c
  | c :: rest => marshalCmd c ++ ',' :: serializeBody rest

/-- Serialization of a whole index file: the compact JSON array the
rewrite engine emits. -/
def serializeIndex (l : List jsonCmd) : List Char :=
  '[' :: serializeBody l ++ [']']

/-! ## JSON decoding (model of the streaming decoder on this schema) -/

/-- String-literal scanner, positioned after the opening quote; `fuel`
bounds the number of scanned units.  Handles the escape forms Go's
decoder accepts, including `\uXXXX` with surrogate pairs (a lone
surrogate decodes to U+FFFD as in Go), and rejects raw control
characters inside a string literal. -/
def decodeUEsc (h1 h2 h3 h4 : Char) (rest : List Char) :
    Option (Char × List Char) := do
  let n1 ← hexValOf h1
  let n2 ← hexValOf h2
  let n3 ← hexValOf h3
  let n4 ← hexValOf h4
  let n := n1 * 4096 + n2 * 256 + n3 * 16 + n4
  if 0xD800 ≤ n && n ≤ 0xDBFF then
    match rest with
    | '\\' :: 'u' :: g1 :: g2 :: g3 :: g4 :: rest2 => do
      let m1 ← hexValOf g1
      let m2 ← hexValOf g2
      let m3 ← hexValOf g3
      let m4 ← hexValOf g4
      let m := m1 * 4096 + m2 * 256 + m3 * 16 + m4
      if 0xDC00 ≤ m && m ≤ 0xDFFF then
        some (Char.ofNat (0x10000 + (n - 0xD800) * 0x400 + (m - 0xDC00)), rest2)
      else some ('�', rest)
    | _ => some ('�', rest)
  else if 0xDC00 ≤ n && n ≤ 0xDFFF then
    some ('�', rest)
  else
    some (Char.ofNat n, rest)

def parseJStringAux : Nat → List Char → List Char → Option (String × List Char)
  | 0, _, _ => none
  | f + 1, acc, s =>
    match s with
    | [] => none
    | c :: rest =>
      if c = '"' then some (String.mk acc.reverse, rest)
      else if c = '\\' then
        match rest with
        | [] => none
        | e :: rest2 =>
          if e = 'u' then
            match rest2 with
            | h1 :: h2 :: h3 :: h4 :: rest3 =>
              match decodeUEsc h1 h2 h3 h4 rest3 with
              | none => none
              | some (ch, rest4) => parseJStringAux f (ch :: acc) rest4
            | _ => none
          else if e = '"' then parseJStringAux f ('"' :: acc) rest2
          else if e = '\\' then parseJStringAux f ('\\' :: acc) rest2
          else if e = '/' then parseJStringAux f ('/' :: acc) rest2
          else if e = 'b' then parseJStringAux f ('\x08' :: acc) rest2
          else if e = 'f' then parseJStringAux f ('\x0c' :: acc) rest2
          else if e = 'n' then parseJStringAux f ('\n' :: acc) rest2
          else if e = 'r' then parseJStringAux f ('\r' :: acc) rest2
          else if e = 't' then parseJStringAux f ('\t' :: acc) rest2
          else none
      else if c.toNat < 0x20 then none
      else parseJStringAux f (c :: acc) rest

/-- String literal parse, at the opening quote. -/
def parseJString (s : List Char) : Option (String × List Char) :=
  match s with
  | '"' :: rest => parseJStringAux (rest.length + 1) [] rest
  | _ => none

/-- Unsigned part of an integer token: digits without a redundant
leading zero. -/
def parseUIntTok (s : List Char) : Option (Int × List Char) :=
  match takeDigits s with
  | ([], _) => none
  | (d :: ds, rest) =>
    if d = '0' ∧ ds ≠ [] then none
    else some ((digitsVal (d :: ds) : Int), rest)

/-- Integer-token parse: optional minus, digits without a redundant
leading zero, value constrained to Go's `int` range. -/
def parseIntTok (s : List Char) : Option (Int × List Char) :=
  match s with
  | [] => none
  | c :: r =>
    if c = '-' then
      match parseUIntTok r with
      | none => none
      | some (v, rest) => if isInt64 (-v) then some (-v, rest) else none
    else
      match parseUIntTok (c :: r) with
      | none => none
      | some (v, rest) => if isInt64 v then some (v, rest) else none

/-- Skip of a JSON `null` literal, used where Go's decoder accepts
`null` as a no-op for a field or element. -/
def parseNull? (s : List Char) : Option (List Char) :=
  match s with
  | 'n' :: 'u' :: 'l' :: 'l' :: r => some r
  | _ => none

/-- ASCII case fold of one character, the fold `encoding/json` applies
when matching object keys to struct field tags. -/
def foldChar (c : Char) : Char :=
  if 'A' ≤ c ∧ c ≤ 'Z' then Char.ofNat (c.toNat + 32) else c

/-- Case-insensitive key comparison: `encoding/json` prefers an exact
tag match but also accepts a case-insensitive one. -/
def eqFold (a b : String) : Bool :=
  a.data.map foldChar = b.data.map foldChar

/-- Fraction part of a JSON number (empty or `.` and digits). -/
def skipFrac (s : List Char) : Option (List Char) :=
  match s with
  | '.' :: r =>
    match takeDigits r with
    | ([], _) => none
    | (_ :: _, r2) => some r2
  | _ => some s

/-- Exponent part of a JSON number (empty or `e`/`E`, sign, digits). -/
def skipExp (s : List Char) : Option (List Char) :=
  match s with
  | c :: r =>
    if c = 'e' ∨ c = 'E' then
      let r2 := match r with
        | sgn :: r' => if sgn = '+' ∨ sgn = '-' then r' else sgn :: r'
        | [] => []
      match takeDigits r2 with
      | ([], _) => none
      | (_ :: _, r3) => some r3
    else some (c :: r)
  | [] => some []

/-- Syntax-only scan of one JSON number, as Go's scanner validates the
tokens it skips: optional minus, integer part without a redundant
leading zero, optional fraction and exponent. -/
def skipNumber (s : List Char) : Option (List Char) :=
  let s1 := match s with
    | '-' :: r => r
    | _ => s
  match takeDigits s1 with
  | ([], _) => none
  | (d :: ds, r2) =>
    if d = '0' ∧ ds ≠ [] then none
    else
      match skipFrac r2 with
      | none => none
      | some r3 => skipExp r3

/-- Pending containers of the generic value scanner. -/
inductive SkipCtx where
  | obj
  | arr
deriving Repr, DecidableEq

/-- Instruction of the generic value scanner: scan a value, scan an
object member (key, colon, value), or unwind finished containers. -/
inductive SkipMode where
  | value
  | member
  | close
deriving Repr, DecidableEq

/-- Generic scan of one well-formed JSON value of any shape, the model
of the token-level skipping Go's decoder performs on object keys that
match no struct field.  A single fuel-indexed loop with an explicit
container stack; every step consumes input, so `length + 1` fuel always
suffices. -/
def skipStep : Nat → SkipMode → List Char → List SkipCtx → Option (List Char)
  | 0, _, _, _ => none
  | f + 1, .value, s, stk =>
    match skipWs s with
    | [] => none
    | c :: t =>
      if c = '"' then
        match parseJString (c :: t) with
        | none => none
        | some (_, r) => skipStep f .close r stk
      else if c = '{' then
        match skipWs t with
        | '}' :: r => skipStep f .close r stk
        | _ => skipStep f .member t stk
      else if c = '[' then
        match skipWs t with
        | ']' :: r => skipStep f .close r stk
        | _ => skipStep f .value t (.arr :: stk)
      else if c = 't' then
        match t with
        | 'r' :: 'u' :: 'e' :: r => skipStep f .close r stk
        | _ => none
      else if c = 'f' then
        match t with
        | 'a' :: 'l' :: 's' :: 'e' :: r => skipStep f .close r stk
        | _ => none
      else if c = 'n' then
        match t with
        | 'u' :: 'l' :: 'l' :: r => skipStep f .close r stk
        | _ => none
      else
        match skipNumber (c :: t) with
        | none => none
        | some r => skipStep f .close r stk
  | f + 1, .member, s, stk =>
    match parseJString (skipWs s) with
    | none => none
    | some (_, r1) =>
      match skipWs r1 with
      | ':' :: r2 => skipStep f .value r2 (.obj :: stk)
      | _ => none
  | f + 1, .close, s, stk =>
    match stk with
    | [] => some s
    | .obj :: stk' =>
      match skipWs s with
      | ',' :: r => skipStep f .member r stk'
      | '}' :: r => skipStep f .close r stk'
      | _ => none
    | .arr :: stk' =>
      match skipWs s with
      | ',' :: r => skipStep f .value r (.arr :: stk')
      | ']' :: r => skipStep f .close r stk'
      | _ => none

/-- Skip of one JSON value, used for object keys matching no field:
Go's `encoding/json` parses and silently discards such values. -/
def skipUnknown (s : List Char) : Option (List Char) :=
  skipStep (s.length + 1) .value s []

/-- Member loop of the `options` object: known integer fields matched as
`encoding/json` matches keys — exact tag name preferred, case-insensitive
fold accepted — duplicate occurrences last-wins, `null` ignored, and a
key matching no field has its value parsed and silently skipped. -/
def parseMetaFields : Nat → List Char → meta' → Option (meta' × List Char)
  | 0, _, _ => none
  | f + 1, s, acc =>
    match parseJString (skipWs s) with
    | none => none
    | some (key, r1) =>
      match skipWs r1 with
      | ':' :: r2 =>
        let val? : Option (meta' × List Char) :=
          if key = "minNumArgs" then
            match parseNull? (skipWs r2) with
            | some r3 => some (acc, r3)
            | none =>
              (parseIntTok (skipWs r2)).map
                (fun p => ({ acc with MinNumArgs := p.1 }, p.2))
          else if key = "maxNumArgs" then
            match parseNull? (skipWs r2) with
            | some r3 => some (acc, r3)
            | none =>
              (parseIntTok (skipWs r2)).map
                (fun p => ({ acc with MaxNumArgs := p.1 }, p.2))
          else if eqFold key "minNumArgs" then
            match parseNull? (skipWs r2) with
            | some r3 => some (acc, r3)
            | none =>
              (parseIntTok (skipWs r2)).map
                (fun p => ({ acc with MinNumArgs := p.1 }, p.2))
          else if eqFold key "maxNumArgs" then
            match parseNull? (skipWs r2) with
            | some r3 => some (acc, r3)
            | none =>
              (parseIntTok (skipWs r2)).map
                (fun p => ({ acc with MaxNumArgs := p.1 }, p.2))
          else (skipUnknown r2).map (fun r3 => (acc, r3))
        match val? with
        | none => none
        | some (acc2, r3) =>
          match skipWs r3 with
          | ',' :: r4 => parseMetaFields f r4 acc2
          | '\x7d' :: r4 => some (acc2, r4)
          | _ => none
      | _ => none

/-- Parse of the `options` object value, merging into the current meta
state as Go's `Unmarshal` does when the field repeats. -/
def parseMetaObj (s : List Char) (acc : meta') : Option (meta' × List Char) :=
  match skipWs s with
  | '\x7b' :: r =>
    match skipWs r with
    | '\x7d' :: r2 => some (acc, r2)
    | _ => parseMetaFields (r.length + 1) r acc
  | _ => none

/-- Member loop of a record object: the three tagged fields of `jsonCmd`
matched as `encoding/json` matches keys — exact tag name preferred,
case-insensitive fold accepted — with values of unmatched keys parsed
and silently skipped. -/
def parseCmdFields : Nat → List Char → jsonCmd → Option (jsonCmd × List Char)
  | 0, _, _ => none
  | f + 1, s, acc =>
    match parseJString (skipWs s) with
    | none => none
    | some (key, r1) =>
      match skipWs r1 with
      | ':' :: r2 =>
        let val? : Option (jsonCmd × List Char) :=
          if key = "commandName" then
            match parseNull? (skipWs r2) with
            | some r3 => some (acc, r3)
            | none =>
              (parseJString (skipWs r2)).map
                (fun p => ({ acc with Name := p.1 }, p.2))
          else if key = "scriptName" then
            match parseNull? (skipWs r2) with
            | some r3 => some (acc, r3)
            | none =>
              (parseJString (skipWs r2)).map
                (fun p => ({ acc with Script := p.1 }, p.2))
          else if key = "options" then
            match parseNull? (skipWs r2) with
            | some r3 => some (acc, r3)
            | none =>
              (parseMetaObj r2 acc.Meta).map
                (fun p => ({ acc with Meta := p.1 }, p.2))
          else if eqFold key "commandName" then
            match parseNull? (skipWs r2) with
            | some r3 => some (acc, r3)
            | none =>
              (parseJString (skipWs r2)).map
                (fun p => ({ acc with Name := p.1 }, p.2))
          else if eqFold key "scriptName" then
            match parseNull? (skipWs r2) with
            | some r3 => some (acc, r3)
            | none =>
              (parseJString (skipWs r2)).map
                (fun p => ({ acc with Script := p.1 }, p.2))
          else if eqFold key "options" then
            match parseNull? (skipWs r2) with
            | some r3 => some (acc, r3)
            | none =>
              (parseMetaObj r2 acc.Meta).map
                (fun p => ({ acc with Meta := p.1 }, p.2))
          else (skipUnknown r2).map (fun r3 => (acc, r3))
        match val? with
        | none => none
        | some (acc2, r3) =>
          match skipWs r3 with
          | ',' :: r4 => parseCmdFields f r4 acc2
          | '\x7d' :: r4 => some (acc2, r4)
          | _ => none
      | _ => none

/-- Parse of one array element into a fresh zero-valued record, the model
of `dec.Decode(&cmd)` for this schema (a `null` element leaves the record
at its zero value, as in Go). -/
def parseCmdObj (s : List Char) : Option (jsonCmd × List Char) :=
  match skipWs s with
  | '\x7b' :: r =>
    match skipWs r with
    | '\x7d' :: r2 => some (zeroCmd, r2)
    | _ => parseCmdFields (r.length + 1) r zeroCmd
  | 'n' :: 'u' :: 'l' :: 'l' :: r => some (zeroCmd, r)
  | _ => none

/-- Element stream of the array, positioned after the opening bracket:
the elements `dec.More()`/`dec.Decode` would deliver, ending where `More`
reports false (at `]`, at `\x7d`, or at end of input, as Go's decoder
does). Returns the elements and the unconsumed remainder. -/
def parseRecordsLoop : Nat → List Char → Bool → Option (List jsonCmd × List Char)
  | 0, _, _ => none
  | f + 1, s, firstIn =>
    match skipWs s with
    | [] => some ([], [])
    | c :: t =>
      if c = ']' then some ([], t)
      else if c = '\x7d' then some ([], c :: t)
      else
        let s2? : Option (List Char) :=
          if firstIn then some (c :: t)
          else if c = ',' then some t
          else none
        match s2? with
        | none => none
        | some s2 =>
          match parseCmdObj s2 with
          | none => none
          | some (cmd, rest) =>
            (parseRecordsLoop f rest false).map (fun p => (cmd :: p.1, p.2))

/-- Full decode of an index file as the streaming loops of `cmd.go` read
it: leading token must be `[`, then the element stream. -/
def decodeIndex (s : List Char) : Except GoErr (List jsonCmd) :=
  match skipWs s with
  | [] => .error .formatError
  | c :: rest =>
    if c = '[' then
      match parseRecordsLoop (rest.length + 1) rest true with
      | some (recs, _) => .ok recs
      | none => .error .syntaxError
    else .error .formatError

/-! ## The streaming finder (`findOperation`, `Find`) -/

/-- Type of the `findFn` callback: a decoded record and the closure
state, giving the escape flag, an optional error, and the new closure
state (the Go callbacks mutate captured variables; the model threads
that state explicitly). -/
def FindFn (σ : Type) := jsonCmd → σ → (Bool × Option GoErr) × σ

/-- Element loop of `findOperation`: decode a record, invoke the
callback, stop on escape or error. -/
def findLoop {σ : Type} (fn : FindFn σ) : Nat → List Char → Bool → σ → Except GoErr Unit × σ
  | 0, _, _, st => (.error .syntaxError, st)
  | f + 1, s, firstIn, st =>
    match skipWs s with
    | [] => (.ok (), st)
    | c :: t =>
      if c = ']' then (.ok (), st)
      else if c = '\x7d' then (.ok (), st)
      else
        let s2? : Option (List Char) :=
          if firstIn then some (c :: t)
          else if c = ',' then some t
          else none
        match s2? with
        | none => (.error .syntaxError, st)
        | some s2 =>
          match parseCmdObj s2 with
          | none => (.error .syntaxError, st)
          | some (cmd, rest) =>
            match fn cmd st with
            | ((_, some e), st') => (.error e, st')
            | ((true, none), st') => (.ok (), st')
            | ((false, none), st') => findLoop fn f rest false st'

/-- Embeds `findOperation`: open the index, require the `[` token
(`InvalidJsonErrTemplate` otherwise), then stream records through the
callback. Read-only: the file state is untouched. -/
def findOperation {σ : Type} (fn : FindFn σ) (s0 : σ) (content : List Char) :
    Except GoErr Unit × σ :=
  match skipWs content with
  | [] => (.error .formatError, s0)
  | c :: rest =>
    if c = '[' then findLoop fn (rest.length + 1) rest true s0
    else (.error .formatError, s0)

/-- Embeds `Find` from `cmd.go`. The returned record is the value the
caller's `*jsonCmd` holds after the call. In the Go source the callback
executes `lCmd = cmd`, which rebinds the closure-captured local pointer
variable `lCmd` rather than writing through the pointer, so the
caller-visible record is never written; the model keeps that rebound
pointer in the closure state (second component) and, faithfully, never
copies it into the caller's record. -/
def Find (content : List Char) (name : String) (lCmdVal : jsonCmd) :
    Except GoErr Unit × jsonCmd :=
  let fn : FindFn (Bool × jsonCmd) := fun cmd st =>
    if cmd.Name = name then ((true, none), (true, cmd))
    else ((false, none), st)
  match findOperation fn (false, lCmdVal) content with
  | (.error e, _) => (.error e, lCmdVal)
  | (.ok _, (hit, _)) =>
    if hit then (.ok (), lCmdVal) else (.error .cmdNotFound, lCmdVal)

/-! ## The streaming rewriter (`modOperation`) -/

/-- Type of the `modFn` callback: a decoded record and the closure state,
giving `(inc, esc, err)`, the possibly mutated record, and the new
closure state. -/
def ModFn (σ : Type) := jsonCmd → σ → (Bool × Bool × Option GoErr) × jsonCmd × σ

/-- File state after an aborted rewrite: the deferred `os.Remove` has
deleted the temporary file and the index is untouched. -/
def modAbort (fs : FS) : FS :=
  { index := fs.index, tmp := none }

/-- Element loop of `modOperation`: decode a record, invoke the callback,
abort on error (propagated) or escape (silent), append included records
to the output with a comma when one was already written, and on stream
end write the closing bracket, flush and atomically rename the temporary
file over the index. -/
def modLoop {σ : Type} (fn : ModFn σ) :
    Nat → List Char → Bool → Bool → List Char → σ → FS → Except GoErr Unit × FS × σ
  | 0, _, _, _, _, st, fs => (.error .syntaxError, modAbort fs, st)
  | f + 1, s, firstIn, another, out, st, fs =>
    match skipWs s with
    | [] => (.ok (), { index := out ++ [']'], tmp := none }, st)
    | c :: t =>
      if c = ']' then (.ok (), { index := out ++ [']'], tmp := none }, st)
      else if c = '\x7d' then (.ok (), { index := out ++ [']'], tmp := none }, st)
      else
        let s2? : Option (List Char) :=
          if firstIn then some (c :: t)
          else if c = ',' then some t
          else none
        match s2? with
        | none => (.error .syntaxError, modAbort fs, st)
        | some s2 =>
          match parseCmdObj s2 with
          | none => (.error .syntaxError, modAbort fs, st)
          | some (cmd, rest) =>
            match fn cmd st with
            | ((_, _, some e), _, st') => (.error e, modAbort fs, st')
            | ((_, true, none), _, st') => (.ok (), modAbort fs, st')
            | ((true, false, none), cmd', st') =>
              modLoop fn f rest false true
                (out ++ (if another then [','] else []) ++ marshalCmd cmd') st' fs
            | ((false, false, none), _, st') =>
              modLoop fn f rest false another out st' fs

/-- Embeds `modOperation`: open the index, create the truncated temporary
file, require the `[` token, write `[` to the temporary file, run the
element loop. Any abort path leaves the index bytes untouched and the
temporary file removed; the sole commit point is the final rename. -/
def modOperation {σ : Type} (fn : ModFn σ) (s0 : σ) (fs : FS) :
    Except GoErr Unit × FS × σ :=
  match skipWs fs.index with
  | [] => (.error .formatError, modAbort fs, s0)
  | c :: rest =>
    if c = '[' then
      modLoop fn (rest.length + 1) rest true false ['['] s0 { fs with tmp := some [] }
    else (.error .formatError, modAbort fs, s0)

/-! ## The append engine (`appendToIndex`) -/

/-- Embeds `appendToIndex`: for a file of at most three bytes write
`[record]` from offset zero; otherwise seek to `size - 10` (a negative
offset makes `Seek` fail, leaving the file intact), read the ten-byte
tail window, find the first `]` in it (`InvalidJsonErrTemplate` error if
absent, file intact), replace it with a comma, and `WriteAt` the patched
window followed by the record and a fresh `]`. -/
def appendToIndex (fs : FS) (raw : List Char) : Except GoErr Unit × FS :=
  let content := fs.index
  let size := content.length
  if size ≤ 3 then
    (.ok (), { fs with index := ('[' :: raw ++ [']']) ++ content.drop (raw.length + 2) })
  else if size < 10 then
    (.error .seekError, fs)
  else
    let offset := size - 10
    let window := content.drop offset
    match window.findIdx? (fun c => c = ']') with
    | none => (.error .formatError, fs)
    | some e =>
      let cap := e + 2 + raw.length
      (.ok (),
        { fs with
          index :=
            content.take (offset + e) ++ ',' :: raw ++ [']'] ++
              content.drop (offset + cap) })

/-! ## Record-level semantics of the rewriter loop -/

/-- Record-level restatement of `modLoop` over an already decoded element
list: result, committed file content when the rename happens, and final
callback state. -/
def recLoop {σ : Type} (fn : ModFn σ) :
    List jsonCmd → Bool → List Char → σ → Except GoErr Unit × Option (List Char) × σ
  | [], _, out, st => (.ok (), some (out ++ [']']), st)
  | c :: cs, another, out, st =>
    match fn c st with
    | ((_, _, some e), _, st') => (.error e, none, st')
    | ((_, true, none), _, st') => (.ok (), none, st')
    | ((true, false, none), c', st') =>
      recLoop fn cs true (out ++ (if another then [','] else []) ++ marshalCmd c') st'
    | ((false, false, none), _, st') => recLoop fn cs another out st'

/-- The records a full, never-aborting run of the callback includes, each
in its post-callback state, in stream order. -/
def modOuts {σ : Type} (fn : ModFn σ) : List jsonCmd → σ → List jsonCmd
  | [], _ => []
  | c :: cs, st =>
    match fn c st with
    | ((inc, _, _), c', st') =>
      if inc then c' :: modOuts fn cs st' else modOuts fn cs st'

/-- First error the callback produces when run over the record stream,
`none` when the run escapes first or completes without error. -/
def modRunsToError {σ : Type} (fn : ModFn σ) : List jsonCmd → σ → Option GoErr
  | [], _ => none
  | c :: cs, st =>
    match fn c st with
    | ((_, _, some e), _, _) => some e
    | ((_, true, none), _, _) => none
    | ((_, false, none), _, st') => modRunsToError fn cs st'

/-! ## Lexical path functions (model of `path/filepath`, Unix flavor) -/

/-- Character-level prefix test, the model of `strings.HasPrefix` (and
of `filepath.IsAbs` when the candidate prefix is `/`). -/
def strHasPfx (s p : String) : Bool :=
  List.isPrefixOf p.data s.data

/-- Split of a character list at `/` separators, the model of
`strings.Split(s, "/")` as `filepath.Clean` walks components. -/
def splitSlashAux : List Char → List Char → List String
  | [], cur => [String.mk cur.reverse]
  | c :: r, cur =>
    if c = '/' then String.mk cur.reverse :: splitSlashAux r []
    else splitSlashAux r (c :: cur)

def splitSlash (s : String) : List String :=
  splitSlashAux s.data []

/-- Join of components with `/` separators. -/
def joinSlash : List String → String
  | [] => ""
  | [x] => x
  | x :: xs => x ++ "/" ++ joinSlash xs

/-- Stack step of Go's `filepath.Clean`: empty and `.` components are
dropped, `..` pops a non-`..` component, `..` at the root vanishes. -/
def cleanFold (rooted : Bool) (acc : List String) (c : String) : List String :=
  if c = ".." then
    match acc with
    | [] => if rooted then [] else [".."]
    | top :: rest => if top = ".." then c :: acc else rest
  else c :: acc

/-- Embeds `filepath.Clean` (Unix rules). -/
def goClean (s : String) : String :=
  let rooted := strHasPfx s "/"
  let comps := (splitSlash s).filter (fun c => c ≠ "" && c ≠ ".")
  let outRev := comps.foldl (cleanFold rooted) []
  let body := joinSlash outRev.reverse
  if rooted then "/" ++ body
  else if body = "" then "." else body

/-- Embeds `filepath.IsAbs` (Unix rules). -/
def goIsAbs (s : String) : Bool :=
  strHasPfx s "/"

/-- Embeds the two-argument `filepath.Join`. -/
def goJoin2 (a b : String) : String :=
  if a = "" && b = "" then ""
  else if a = "" then goClean b
  else if b = "" then goClean a
  else goClean (a ++ "/" ++ b)

/-- Embeds `filepath.Base` (Unix rules). -/
def goBase (s : String) : String :=
  if s = "" then "."
  else
    let noSlash := (s.data.reverse.dropWhile (fun c => c = '/')).reverse
    if noSlash = [] then "/"
    else String.mk (noSlash.reverse.takeWhile (fun c => c ≠ '/')).reverse

/-- Embeds `filepath.Ext` (Unix rules): the suffix starting at the final
dot of the final component, empty when there is no dot. -/
def goExt (s : String) : String :=
  let revLast := s.data.reverse.takeWhile (fun c => c ≠ '/')
  match revLast.findIdx? (fun c => c = '.') with
  | none => ""
  | some i => String.mk ((revLast.take (i + 1)).reverse)

/-- Embeds `filepath.Abs` with the working directory made explicit (Go
reads it from the process state): absolute paths are cleaned, relative
ones joined to the working directory. -/
def goAbs (wd : String) (s : String) : String :=
  if goIsAbs s then goClean s else goJoin2 wd s

/-- Embeds `strconv.Atoi`: optional sign, decimal digits, whole-string
match, 64-bit range check. -/
def goAtoi (s : String) : Except GoErr Int :=
  let body :=
    match s.data with
    | [] => (false, ([] : List Char))
    | c :: r =>
      if c = '-' then (true, r)
      else if c = '+' then (false, r)
      else (false, c :: r)
  let neg := body.1
  let ds := body.2
  if ds.isEmpty || !ds.all (fun c => isDigitChar c) then .error .atoiError
  else
    let v : Int := (digitsVal ds : Int)
    let v := if neg then -v else v
    if isInt64 v then .ok v else .error .atoiError

/-! ## Orchestration wrappers (`parseCmd` and the command handlers) -/

/-- Embeds `parseCmd`: with at least two arguments set name and the
absolutized script path; a third and fourth argument are `Atoi`-parsed
bounds (errors propagated); fewer than two arguments is a
wrong-argument-count error. The working directory of `filepath.Abs` is
an explicit parameter. -/
def parseCmd (wd : String) (args : List String) (cmd : jsonCmd) : Except GoErr jsonCmd :=
  let l := args.length
  let cmd :=
    if 2 ≤ l then
      { cmd with Name := args.getD 0 "", Script := goAbs wd (args.getD 1 "") }
    else cmd
  let step3 : Except GoErr jsonCmd :=
    if 3 ≤ l then
      match goAtoi (args.getD 2 "") with
      | .error e => .error e
      | .ok i => .ok { cmd with Meta := { cmd.Meta with MinNumArgs := i } }
    else .ok cmd
  match step3 with
  | .error e => .error e
  | .ok cmd =>
    let step4 : Except GoErr jsonCmd :=
      if 4 ≤ l then
        match goAtoi (args.getD 3 "") with
        | .error e => .error e
        | .ok i => .ok { cmd with Meta := { cmd.Meta with MaxNumArgs := i } }
      else .ok cmd
    match step4 with
    | .error e => .error e
    | .ok cmd => if 2 ≤ l then .ok cmd else .error .wrongArgCount

/-- The record `CreateCmd` starts from: zero value except that
`MaxNumArgs` is `-1` (any number of arguments by default). -/
def createDefaultCmd : jsonCmd :=
  { Name := "", Script := "", Meta := { MinNumArgs := 0, MaxNumArgs := -1 } }

/-- Embeds `CreateCmd`: build the record via `parseCmd`, require the
script file to exist (`os.Stat`, an explicit predicate parameter),
marshal it and hand the bytes to the append engine. -/
def CreateCmd (wd : String) (scriptExists : String → Bool) (fs : FS)
    (args : List String) : Except GoErr Unit × FS :=
  match parseCmd wd args createDefaultCmd with
  | .error e => (.error e, fs)
  | .ok cmd =>
    if ¬scriptExists cmd.Script then (.error .noSuchScript, fs)
    else appendToIndex fs (marshalCmd cmd)

/-- The callback `ModifyCmd` installs: on the record whose name matches,
set the hit flag, substitute every non-sentinel update argument (`"_"`
keeps the old value, rendered back through `%d` for the bounds), and
rebuild the record through `parseCmd`; every record is included. -/
def modifyFn (wd : String) (name : String) (updateArg : List String) :
    ModFn Bool := fun cmd hit =>
  if cmd.Name ≠ name then ((true, false, none), cmd, hit)
  else
    let n := cmd.Name
    let s := cmd.Script
    let mn := String.mk (intReprL cmd.Meta.MinNumArgs)
    let mx := String.mk (intReprL cmd.Meta.MaxNumArgs)
    let l := updateArg.length
    let n := if updateArg.getD 0 "" ≠ "_" then updateArg.getD 0 "" else n
    let s := if 2 ≤ l && updateArg.getD 1 "" ≠ "_" then updateArg.getD 1 "" else s
    let mn := if 3 ≤ l && updateArg.getD 2 "" ≠ "_" then updateArg.getD 2 "" else mn
    let mx := if 4 ≤ l && updateArg.getD 3 "" ≠ "_" then updateArg.getD 3 "" else mx
    match parseCmd wd [n, s, mn, mx] cmd with
    | .error e => ((true, false, some e), cmd, true)
    | .ok cmd' => ((true, false, none), cmd', true)

/-- Embeds `ModifyCmd`: at least two arguments required, then a rewrite
with `modifyFn`; a run in which no record matched reports
`CmdNotFoundErr`. -/
def ModifyCmd (wd : String) (fs : FS) (args : List String) : Except GoErr Unit × FS :=
  match args with
  | [] => (.error .wrongArgCount, fs)
  | [_] => (.error .wrongArgCount, fs)
  | name :: updateArg =>
    match modOperation (modifyFn wd name updateArg) false fs with
    | (.error e, fs', _) => (.error e, fs')
    | (.ok _, fs', hit) =>
      if ¬hit then (.error .cmdNotFound, fs') else (.ok (), fs')

/-- List insertion keeping the first occurrence, the deterministic stand-in
for Go's map insertion (only membership and size are ever used). -/
def addUnique (l : List String) (x : String) : List String :=
  if x ∈ l then l else l ++ [x]

/-- The callback `DeleteCmd` installs: exclude records whose name is in
the deletion set, recording which requested names matched. -/
def deleteFn (excl : List String) : ModFn (List String) := fun cmd rm =>
  if cmd.Name ∈ excl then ((false, false, none), cmd, addUnique rm cmd.Name)
  else ((true, false, none), cmd, rm)

/-- Embeds `DeleteCmd`: rewrite with `deleteFn`; afterwards, when not
every requested name was matched, the unmatched ones are reported to the
operator (returned here as the third component; Go prints them, in map
iteration order — only membership is meaningful) and the call still
returns success. -/
def DeleteCmd (fs : FS) (args : List String) :
    Except GoErr Unit × FS × List String :=
  match args with
  | [] => (.error .wrongArgCount, fs, [])
  | _ =>
    let excl := args.foldl addUnique []
    match modOperation (deleteFn excl) [] fs with
    | (.error e, fs', _) => (.error e, fs', [])
    | (.ok _, fs', rm) =>
      let reported :=
        if rm.length < excl.length then excl.filter (fun k => k ∉ rm) else []
      (.ok (), fs', reported)

/-- Operator-visible events of a Tidy run (Go prints these with
`fmt.Printf`; the model records them structurally). -/
inductive TidyEvent where
  | renamed (oldName newName : String)
  | moveFailed (scriptName newPath : String)
deriving Repr, DecidableEq

/-- Collision probe of `TidyCmd`: candidate names `stem ++ n ++ ext` for
`n = 1, 2, …` until one is not taken. The Go loop runs unboundedly; one
more candidate than there are taken names always suffices, which the
fuel argument encodes. Note the stem Go computes is
`cmd.Script[:len(cmd.Script)-len(ext)]` — the full path, not the base
name. -/
def probeName (taken : List String) (stem ext : String) : Nat → Nat → String
  | n, 0 => stem ++ String.mk (natReprL n) ++ ext
  | n, fuel + 1 =>
    let cand := stem ++ String.mk (natReprL n) ++ ext
    if cand ∈ taken then probeName taken stem ext (n + 1) fuel else cand

/-- The callback `TidyCmd` installs: records whose script already lives
under the managed directory are left alone; otherwise a base-name
collision against the taken-name set triggers the probe rename, the
script is moved (`os.Rename`, outcome an explicit predicate parameter),
and on success the record's path becomes the join of the managed
directory and the chosen name. A failed rename is printed and the error
returned from the callback. -/
def tidyFn (scriptDp : String) (taken : List String)
    (renameOk : String → String → Bool) : ModFn (List TidyEvent) := fun cmd log =>
  let scriptName := goBase cmd.Script
  if strHasPfx cmd.Script scriptDp then ((true, false, none), cmd, log)
  else
    let p :=
      if scriptName ∈ taken then
        let ext := goExt scriptName
        let stem := String.mk (cmd.Script.data.take (cmd.Script.data.length - ext.data.length))
        let newName := probeName taken stem ext 1 (taken.length + 1)
        (newName, log ++ [TidyEvent.renamed scriptName newName])
      else (scriptName, log)
    let newPath := goJoin2 scriptDp p.1
    if renameOk cmd.Script newPath then
      ((true, false, none), { cmd with Script := newPath }, p.2)
    else
      ((true, false, some (.renameFailed cmd.Script newPath)), cmd,
        p.2 ++ [TidyEvent.moveFailed p.1 newPath])

/-- Embeds `TidyCmd`: read the managed directory's entries into the
taken-name set (an explicit parameter, as is the rename outcome), then
rewrite the index with `tidyFn`. -/
def TidyCmd (scriptDp : String) (taken : List String)
    (renameOk : String → String → Bool) (fs : FS) :
    Except GoErr Unit × FS × List TidyEvent :=
  modOperation (tidyFn scriptDp taken renameOk) [] fs

/-- Condition that an input does not start with a digit, so a digit run
ends exactly at its boundary. -/
def nonDigitHead (rest : List Char) : Bool :=
  match rest with
  | [] => true
  | c :: _ => !isDigitChar c

/-- Remainder of a serialized array body as the element loop sees it
after the first element: a comma before each further record, then the
closing bracket. -/
def bodyTail (l : List jsonCmd) (rest : List Char) : List Char :=
  match l with
  | [] => ']' :: rest
  | c :: cs => ',' :: (marshalCmd c ++ bodyTail cs rest)

/-- Array-body glue for output written after a possible earlier element:
a comma is emitted first exactly when something was already written and
the remaining output is nonempty. -/
def glueBody (another : Bool) (l : List jsonCmd) : List Char :=
  match l with
  | [] => []
  | _ => (if another then [','] else []) ++ serializeBody l

/-- Final callback state of a full, never-aborting run over the record
stream. -/
def modFinalSt {σ : Type} (fn : ModFn σ) : List jsonCmd → σ → σ
  | [], st => st
  | c :: cs, st => modFinalSt fn cs (fn c st).2.2

/-- Decidable check that a callback run over the record stream never
escapes and never errors. -/
def runOk {σ : Type} (fn : ModFn σ) : List jsonCmd → σ → Bool
  | [], _ => true
  | c :: cs, st =>
    !(fn c st).1.2.1 && ((fn c st).1.2.2).isNone && runOk fn cs (fn c st).2.2

/-- Sequence of append-engine calls, each handing one marshalled record
to `appendToIndex`, stopping at the first failure as the CLI would. -/
def appendSeq (fs : FS) : List jsonCmd → Except GoErr Unit × FS
  | [] => (.ok (), fs)
  | c :: cs =>
    match appendToIndex fs (marshalCmd c) with
    | (.ok _, fs') => appendSeq fs' cs
    | (e, fs') => (e, fs')

/-- The stem the Tidy collision probe actually uses: the record's FULL
script path with the extension cut off (`cmd.Script[:len-len(ext)]` in
the source), not the base filename. -/
def tidyProbeStem (script : String) : String :=
  String.mk (script.data.take (script.data.length - (goExt (goBase script)).data.length))

/-- First probe candidate of the Tidy collision rename. -/
def tidyProbeName1 (script : String) : String :=
  tidyProbeStem script ++ "1" ++ goExt (goBase script)

/-- An index file in none of the shapes the rewriter itself emits: extra
whitespace between tokens, an unknown `extra` field holding numbers,
literals, a bracket-laden string and nested containers, and the known
keys `SCRIPTNAME`, `Options`, `MINNUMARGS` given in foreign case — all
of which `encoding/json` decodes into the fixed four-field record. -/
def messyIndex : List Char :=
  ("[ \x7b \"commandName\" : \"build\" , \"extra\" : [ 1 , -2.5e3 , true , null , \"a]\x7d\\\"\" , \x7b \"deep\" : [ [ ] , \x7b \x7d ] \x7d ] , \"SCRIPTNAME\" : \"/s/b.sh\" , \"Options\" : \x7b \"MINNUMARGS\" : 0 , \"maxNumArgs\" : -1 \x7d \x7d ]").data

/-- Sample record used by concrete witnesses. -/
def recBuild : jsonCmd :=
  { Name := "build", Script := "/s/b.sh", Meta := { MinNumArgs := 0, MaxNumArgs := -1 } }

/-- Sample record with a non-cleaned script path. -/
def recX : jsonCmd :=
  { Name := "x", Script := "/a/../b", Meta := { MinNumArgs := 2, MaxNumArgs := 7 } }

/-- Callback that includes every record unchanged (witness material). -/
def inclFn : ModFn Unit := fun c s => ((true, false, none), c, s)

/-- Callback that errors on every record (witness material). -/
def errFn : ModFn Unit := fun c s => ((true, false, some .atoiError), c, s)

/-! ## Basic lemmas: whitespace, digits, decimal rendering -/

theorem skipWs_cons_of_nonws {c : Char} (h : isWsChar c = false) (s : List Char) :
    skipWs (c :: s) = c :: s := by
  simp [skipWs, List.dropWhile_cons, h]

theorem skipWs_length_le (s : List Char) : (skipWs s).length ≤ s.length := by
  induction s with
  | nil => simp [skipWs]
  | cons c r ih =>
    by_cases h : isWsChar c
    · simp only [skipWs, List.dropWhile_cons, h, if_true] at *
      simp only [List.length_cons]
      omega
    · simp [skipWs, List.dropWhile_cons, h]

theorem digitChar_toNat {d : Nat} (h : d < 10) : (digitChar d).toNat = 48 + d := by
  interval_cases d <;> decide

theorem isDigitChar_digitChar {d : Nat} (h : d < 10) :
    isDigitChar (digitChar d) = true := by
  interval_cases d <;> decide

theorem isDigitChar_toNat_bounds {c : Char} (h : isDigitChar c = true) :
    48 ≤ c.toNat ∧ c.toNat ≤ 57 := by
  simp [isDigitChar] at h
  omega

theorem natReprAux_spec : ∀ n f acc, n < f →
    natReprAux f n acc = natReprL n ++ acc := by
  intro n
  induction n using Nat.strong_induction_on with
  | _ n ih =>
    intro f acc hf
    match f, hf with
    | f + 1, _ =>
      by_cases h10 : n < 10
      · simp [natReprAux, natReprL, h10]
      · have hdiv : n / 10 < n := Nat.div_lt_self (by omega) (by omega)
        have h1 := ih (n / 10) hdiv f (digitChar (n % 10) :: acc) (by omega)
        have h2 := ih (n / 10) hdiv n (digitChar (n % 10) :: []) (by omega)
        have hL : natReprL n = natReprL (n / 10) ++ [digitChar (n % 10)] := by
          rw [natReprL]
          simp only [natReprAux, if_neg h10]
          exact h2
        simp only [natReprAux, if_neg h10, h1, hL, List.append_assoc,
          List.cons_append, List.nil_append]

theorem natReprL_unfold (n : Nat) :
    natReprL n = if n < 10 then [digitChar n] else natReprL (n / 10) ++ [digitChar (n % 10)] := by
  by_cases h10 : n < 10
  · simp [natReprL, natReprAux, h10]
  · rw [if_neg h10, natReprL]
    simp only [natReprAux, if_neg h10]
    exact natReprAux_spec (n / 10) n (digitChar (n % 10) :: []) (by omega)

theorem natReprL_ne_nil (n : Nat) : natReprL n ≠ [] := by
  rw [natReprL_unfold]
  by_cases h10 : n < 10 <;> simp [h10]

theorem natReprL_all_digits : ∀ n, ∀ c ∈ natReprL n, isDigitChar c = true := by
  intro n
  induction n using Nat.strong_induction_on with
  | _ n ih =>
    intro c hc
    rw [natReprL_unfold] at hc
    by_cases h10 : n < 10
    · rw [if_pos h10] at hc
      simp at hc
      subst hc
      exact isDigitChar_digitChar h10
    · rw [if_neg h10] at hc
      have hdiv : n / 10 < n := Nat.div_lt_self (by omega) (by omega)
      rcases List.mem_append.mp hc with h | h
      · exact ih (n / 10) hdiv c h
      · simp at h
        subst h
        exact isDigitChar_digitChar (Nat.mod_lt _ (by omega))

theorem digitsVal_append_one (a : List Char) (c : Char) :
    digitsVal (a ++ [c]) = 10 * digitsVal a + (c.toNat - 48) := by
  simp [digitsVal, List.foldl_append]

theorem digitsVal_natReprL : ∀ n, digitsVal (natReprL n) = n := by
  intro n
  induction n using Nat.strong_induction_on with
  | _ n ih =>
    rw [natReprL_unfold]
    by_cases h10 : n < 10
    · simp [if_pos h10, digitsVal, digitChar_toNat h10]
    · have hdiv : n / 10 < n := Nat.div_lt_self (by omega) (by omega)
      rw [if_neg h10, digitsVal_append_one, ih (n / 10) hdiv,
        digitChar_toNat (Nat.mod_lt _ (by omega))]
      omega

theorem natReprL_no_leading_zero : ∀ n d ds, natReprL n = d :: ds → d = '0' → ds = [] := by
  intro n
  induction n using Nat.strong_induction_on with
  | _ n ih =>
    intro d ds heq hd
    subst hd
    rw [natReprL_unfold] at heq
    by_cases h10 : n < 10
    · rw [if_pos h10] at heq
      injection heq with hd1 hds
      exact hds.symm
    · exfalso
      rw [if_neg h10] at heq
      have hdiv : n / 10 < n := Nat.div_lt_self (by omega) (by omega)
      obtain ⟨e, es, hrep⟩ : ∃ e es, natReprL (n / 10) = e :: es := by
        cases hrepr : natReprL (n / 10) with
        | nil => exact absurd hrepr (natReprL_ne_nil _)
        | cons e es => exact ⟨e, es, rfl⟩
      rw [hrep, List.cons_append] at heq
      injection heq with hde hds
      subst hde
      have hes := ih (n / 10) hdiv '0' es hrep rfl
      subst hes
      have h0 := digitsVal_natReprL (n / 10)
      rw [hrep] at h0
      simp [digitsVal] at h0
      omega

theorem digit_ne_of_toNat {c x : Char} (hc : isDigitChar c = true)
    (hx : x.toNat < 48 ∨ 57 < x.toNat) : c ≠ x := by
  intro h
  subst h
  have := isDigitChar_toNat_bounds hc
  omega

theorem takeDigits_fst_append (ds rest : List Char)
    (hds : ∀ c ∈ ds, isDigitChar c = true) (hrest : nonDigitHead rest = true) :
    takeDigits (ds ++ rest) = (ds, rest) := by
  induction ds with
  | nil =>
    simp only [List.nil_append]
    cases rest with
    | nil => rfl
    | cons c r =>
      simp only [nonDigitHead, Bool.not_eq_true'] at hrest
      simp [takeDigits, hrest]
  | cons c cs ih =>
    have hc := hds c (by simp)
    have ih' := ih (fun x hx => hds x (by simp [hx]))
    simp only [List.cons_append, takeDigits, hc, if_true, List.append_eq, ih']

theorem parseUIntTok_natReprL (n : Nat) (rest : List Char)
    (hrest : nonDigitHead rest = true) :
    parseUIntTok (natReprL n ++ rest) = some ((n : Int), rest) := by
  have htd := takeDigits_fst_append (natReprL n) rest (natReprL_all_digits n) hrest
  obtain ⟨d, ds, hrep⟩ : ∃ d ds, natReprL n = d :: ds := by
    cases h : natReprL n with
    | nil => exact absurd h (natReprL_ne_nil n)
    | cons d ds => exact ⟨d, ds, rfl⟩
  have hlz : ¬(d = '0' ∧ ds ≠ []) := by
    rintro ⟨hd, hds⟩
    exact hds (natReprL_no_leading_zero n d ds hrep hd)
  have hval : digitsVal (d :: ds) = n := by
    rw [← hrep]
    exact digitsVal_natReprL n
  rw [hrep] at htd
  simp only [hrep, parseUIntTok, htd, if_neg hlz, hval]

theorem parseIntTok_intReprL (v : Int) (rest : List Char) (hv : isInt64 v = true)
    (hrest : nonDigitHead rest = true) :
    parseIntTok (intReprL v ++ rest) = some (v, rest) := by
  by_cases hneg : v < 0
  · have hval : (((-v).toNat : Int)) = -v := Int.toNat_of_nonneg (by omega)
    rw [intReprL, if_pos hneg, List.cons_append]
    simp only [parseIntTok, if_pos rfl, parseUIntTok_natReprL (-v).toNat rest hrest, hval]
    rw [neg_neg]
    simp [hv]
  · have hval : ((v.toNat : Int)) = v := Int.toNat_of_nonneg (by omega)
    rw [intReprL, if_neg hneg]
    obtain ⟨d, ds, hrep⟩ : ∃ d ds, natReprL v.toNat = d :: ds := by
      cases h : natReprL v.toNat with
      | nil => exact absurd h (natReprL_ne_nil _)
      | cons d ds => exact ⟨d, ds, rfl⟩
    have hd : isDigitChar d = true := by
      apply natReprL_all_digits v.toNat
      rw [hrep]
      simp
    have hne : d ≠ '-' := digit_ne_of_toNat hd (by left; decide)
    rw [hrep, List.cons_append]
    simp only [parseIntTok, if_neg hne]
    rw [show d :: (ds ++ rest) = (d :: ds) ++ rest from rfl, ← hrep,
      parseUIntTok_natReprL v.toNat rest hrest, hval]
    simp [hv]

theorem goAtoi_intReprL (v : Int) (hv : isInt64 v = true) :
    goAtoi (String.mk (intReprL v)) = .ok v := by
  by_cases hneg : v < 0
  · have hval : (((-v).toNat : Int)) = -v := Int.toNat_of_nonneg (by omega)
    rw [intReprL, if_pos hneg]
    have hne : ¬(natReprL (-v).toNat).isEmpty = true := by
      simp [List.isEmpty_iff, natReprL_ne_nil]
    have hall : (natReprL (-v).toNat).all (fun c => isDigitChar c) = true := by
      simp only [List.all_eq_true]
      exact fun c hc => natReprL_all_digits _ c hc
    have hrange : isInt64 (-(digitsVal (natReprL (-v).toNat) : Int)) = true := by
      rw [digitsVal_natReprL, hval, neg_neg]
      exact hv
    have hgoal : -((digitsVal (natReprL (-v).toNat) : Nat) : Int) = v := by
      rw [digitsVal_natReprL, hval, neg_neg]
    simp [goAtoi, hne, hall, hrange, hgoal, hv]
  · have hval : ((v.toNat : Int)) = v := Int.toNat_of_nonneg (by omega)
    obtain ⟨d, ds, hrep⟩ : ∃ d ds, natReprL v.toNat = d :: ds := by
      cases h : natReprL v.toNat with
      | nil => exact absurd h (natReprL_ne_nil _)
      | cons d ds => exact ⟨d, ds, rfl⟩
    have hd : isDigitChar d = true := by
      apply natReprL_all_digits v.toNat
      rw [hrep]
      simp
    have hne1 : d ≠ '-' := digit_ne_of_toNat hd (by left; decide)
    have hne2 : d ≠ '+' := digit_ne_of_toNat hd (by left; decide)
    have hall : (d :: ds).all (fun c => isDigitChar c) = true := by
      simp only [List.all_eq_true]
      intro c hc
      apply natReprL_all_digits v.toNat
      rw [hrep]
      exact hc
    have hvv : ((digitsVal (d :: ds) : Nat) : Int) = v := by
      rw [← hrep, digitsVal_natReprL]
      exact hval
    have hrange : isInt64 ((digitsVal (d :: ds) : Int)) = true := by
      rw [hvv]
      exact hv
    rw [intReprL, if_neg hneg, hrep]
    simp [goAtoi, hne1, hne2, hall, hrange, hvv, hv]

/-! ## String-escape roundtrip lemmas -/

theorem hexValOf_hexDigitChar : ∀ m, m < 16 → hexValOf (hexDigitChar m) = some m := by
  decide

theorem parseJStringAux_ord (f : Nat) (acc : List Char) (c : Char) (rest : List Char)
    (h1 : c ≠ '"') (h2 : c ≠ '\\') (h3 : ¬c.toNat < 0x20) :
    parseJStringAux (f + 1) acc (c :: rest) = parseJStringAux f (c :: acc) rest := by
  simp only [parseJStringAux, if_neg h1, if_neg h2, if_neg h3]

theorem decodeUEsc_ctl (c : Char) (rest : List Char) (hctl : c.toNat < 0x20) :
    decodeUEsc '0' '0' (hexDigitChar (c.toNat / 16)) (hexDigitChar (c.toNat % 16)) rest
      = some (c, rest) := by
  have hhi : c.toNat / 16 < 16 := by omega
  have hlo : c.toNat % 16 < 16 := by omega
  simp only [decodeUEsc, hexValOf_hexDigitChar _ hhi, hexValOf_hexDigitChar _ hlo]
  have h0 : hexValOf '0' = some 0 := by decide
  rw [h0]
  simp only [Option.bind_eq_bind, Option.some_bind]
  have hn' : 0 * 4096 + 0 * 256 + c.toNat / 16 * 16 + c.toNat % 16 = c.toNat := by omega
  rw [hn']
  have hb1 : decide (55296 ≤ c.toNat) = false := by
    simp only [decide_eq_false_iff_not]
    omega
  have hb2 : decide (56320 ≤ c.toNat) = false := by
    simp only [decide_eq_false_iff_not]
    omega
  simp only [hb1, hb2, Bool.false_and, Bool.false_eq_true, if_false, Char.ofNat_toNat]

theorem parseJStringAux_uEsc (f : Nat) (acc : List Char) (h1 h2 h3 h4 ch : Char)
    (rest rest4 : List Char) (hdec : decodeUEsc h1 h2 h3 h4 rest = some (ch, rest4)) :
    parseJStringAux (f + 1) acc ('\\' :: 'u' :: h1 :: h2 :: h3 :: h4 :: rest)
      = parseJStringAux f (ch :: acc) rest4 := by
  simp [parseJStringAux, hdec]

theorem parseJStringAux_escapeChar (f : Nat) (acc : List Char) (c : Char)
    (rest : List Char) :
    parseJStringAux (f + 1) acc (escapeChar c ++ rest) = parseJStringAux f (c :: acc) rest := by
  by_cases hq : c = '"'
  · subst hq
    rfl
  by_cases hb : c = '\\'
  · subst hb
    rfl
  by_cases hn : c = '\n'
  · subst hn
    rfl
  by_cases hr : c = '\r'
  · subst hr
    rfl
  by_cases ht : c = '\t'
  · subst ht
    rfl
  by_cases hlt : c = '<'
  · subst hlt
    rfl
  by_cases hgt : c = '>'
  · subst hgt
    rfl
  by_cases hamp : c = '&'
  · subst hamp
    rfl
  by_cases hctl : c.toNat < 0x20
  · rw [escapeChar, if_neg hq, if_neg hb, if_neg hn, if_neg hr, if_neg ht,
      if_neg hlt, if_neg hgt, if_neg hamp, if_pos hctl]
    show parseJStringAux (f + 1) acc
      ('\\' :: 'u' :: '0' :: '0' :: hexDigitChar (c.toNat / 16) ::
        hexDigitChar (c.toNat % 16) :: rest) = _
    exact parseJStringAux_uEsc f acc _ _ _ _ c rest rest (decodeUEsc_ctl c rest hctl)
  by_cases h28 : c.toNat = 0x2028
  · have hc : c = Char.ofNat 0x2028 := by
      rw [← h28, Char.ofNat_toNat]
    subst hc
    rfl
  by_cases h29 : c.toNat = 0x2029
  · have hc : c = Char.ofNat 0x2029 := by
      rw [← h29, Char.ofNat_toNat]
    subst hc
    rfl
  · rw [escapeChar, if_neg hq, if_neg hb, if_neg hn, if_neg hr, if_neg ht,
      if_neg hlt, if_neg hgt, if_neg hamp, if_neg hctl, if_neg h28, if_neg h29]
    exact parseJStringAux_ord f acc c rest hq hb hctl

theorem escapeChar_length_pos (c : Char) : 1 ≤ (escapeChar c).length := by
  unfold escapeChar
  split_ifs <;> simp [uEscL]

theorem escapeString_mk_cons (c : Char) (cs : List Char) :
    escapeString (String.mk (c :: cs)) = escapeChar c ++ escapeString (String.mk cs) := rfl

theorem escapeString_length_ge (s : List Char) :
    s.length ≤ (escapeString (String.mk s)).length := by
  induction s with
  | nil => simp [escapeString]
  | cons c cs ih =>
    rw [escapeString_mk_cons]
    simp only [List.length_append, List.length_cons]
    have := escapeChar_length_pos c
    omega

theorem parseJStringAux_escapeString (s : List Char) : ∀ f acc rest, s.length < f →
    parseJStringAux f acc (escapeString (String.mk s) ++ '"' :: rest)
      = some (String.mk (acc.reverse ++ s), rest) := by
  induction s with
  | nil =>
    intro f acc rest hf
    match f, hf with
    | f + 1, _ =>
      show parseJStringAux (f + 1) acc ('"' :: rest) = _
      simp [parseJStringAux]
  | cons c cs ih =>
    intro f acc rest hf
    match f, hf with
    | f + 1, hf =>
      rw [escapeString_mk_cons, List.append_assoc, parseJStringAux_escapeChar]
      rw [ih f (c :: acc) rest (by simpa using Nat.lt_of_succ_lt_succ hf)]
      simp

theorem parseJString_escape (s : String) (rest : List Char) :
    parseJString ('"' :: (escapeString s ++ '"' :: rest)) = some (s, rest) := by
  obtain ⟨sd⟩ := s
  have hlen : sd.length < (escapeString (String.mk sd) ++ '"' :: rest).length + 1 := by
    have h1 := escapeString_length_ge sd
    simp only [List.length_append, List.length_cons]
    omega
  show parseJStringAux ((escapeString (String.mk sd) ++ '"' :: rest).length + 1) []
    (escapeString (String.mk sd) ++ '"' :: rest) = _
  rw [parseJStringAux_escapeString sd _ [] rest hlen]
  simp

/-! ## Object-decode roundtrip lemmas -/

theorem parseNull?_of_head_ne (s : List Char) (h : s.head? ≠ some 'n') :
    parseNull? s = none := by
  unfold parseNull?
  split
  · simp at h
  · rfl

theorem intReprL_ne_nil (v : Int) : intReprL v ≠ [] := by
  rw [intReprL]
  by_cases h : v < 0
  · simp [h]
  · simp [h, natReprL_ne_nil]

theorem intReprL_head_facts (v : Int) :
    ∀ d ds, intReprL v = d :: ds → isWsChar d = false ∧ d ≠ 'n' := by
  intro d ds hrep
  rw [intReprL] at hrep
  by_cases h : v < 0
  · rw [if_pos h] at hrep
    injection hrep with h1 h2
    subst h1
    exact ⟨by decide, by decide⟩
  · rw [if_neg h] at hrep
    have hd : isDigitChar d = true := by
      apply natReprL_all_digits v.toNat
      rw [hrep]
      simp
    have hb := isDigitChar_toNat_bounds hd
    constructor
    · by_contra hw
      simp only [Bool.not_eq_false] at hw
      have : d = ' ' ∨ d = '\t' ∨ d = '\n' ∨ d = '\r' := by
        simp only [isWsChar, Bool.or_eq_true, decide_eq_true_eq] at hw
        tauto
      rcases this with h | h | h | h <;> (subst h; revert hb; decide)
    · exact digit_ne_of_toNat hd (by right; decide)

theorem skipWs_intReprL (v : Int) (t : List Char) :
    skipWs (intReprL v ++ t) = intReprL v ++ t := by
  obtain ⟨d, ds, hrep⟩ : ∃ d ds, intReprL v = d :: ds := by
    cases h : intReprL v with
    | nil => exact absurd h (intReprL_ne_nil v)
    | cons d ds => exact ⟨d, ds, rfl⟩
  obtain ⟨hws, -⟩ := intReprL_head_facts v d ds hrep
  rw [hrep, List.cons_append, skipWs_cons_of_nonws hws]

theorem parseNull?_intReprL (v : Int) (t : List Char) :
    parseNull? (intReprL v ++ t) = none := by
  obtain ⟨d, ds, hrep⟩ : ∃ d ds, intReprL v = d :: ds := by
    cases h : intReprL v with
    | nil => exact absurd h (intReprL_ne_nil v)
    | cons d ds => exact ⟨d, ds, rfl⟩
  obtain ⟨-, hn⟩ := intReprL_head_facts v d ds hrep
  rw [hrep, List.cons_append]
  exact parseNull?_of_head_ne _ (by simp [hn])

theorem nonDigitHead_comma (t : List Char) : nonDigitHead (',' :: t) = true := rfl

theorem nonDigitHead_rbrace (t : List Char) : nonDigitHead ('\x7d' :: t) = true := rfl

theorem parseMetaFields_two (macc : meta') (vmin vmax : Int)
    (hmin : isInt64 vmin = true) (hmax : isInt64 vmax = true) (rest : List Char) :
    ∀ f, 2 ≤ f →
    parseMetaFields f
      ('"' :: (escapeString "minNumArgs" ++ '"' :: ':' ::
        (intReprL vmin ++ ',' :: '"' :: (escapeString "maxNumArgs" ++ '"' :: ':' ::
          (intReprL vmax ++ '\x7d' :: rest))))) macc
      = some ({ MinNumArgs := vmin, MaxNumArgs := vmax }, rest) := by
  intro f hf
  match f, hf with
  | f + 1, hf =>
    have hq : isWsChar '"' = false := by decide
    simp only [parseMetaFields, skipWs_cons_of_nonws hq, parseJString_escape,
      skipWs_cons_of_nonws (show isWsChar ':' = false by decide)]
    simp only [if_true]
    rw [skipWs_intReprL, parseNull?_intReprL,
      parseIntTok_intReprL vmin _ hmin (nonDigitHead_comma _)]
    simp only [Option.map_some, Option.map_some']
    rw [skipWs_cons_of_nonws (show isWsChar ',' = false by decide)]
    match f, hf with
    | f + 1, _ =>
      simp only [parseMetaFields, skipWs_cons_of_nonws hq, parseJString_escape,
        skipWs_cons_of_nonws (show isWsChar ':' = false by decide)]
      rw [if_neg (show ¬("maxNumArgs" = "minNumArgs") by decide)]
      simp only [if_true]
      rw [skipWs_intReprL, parseNull?_intReprL,
        parseIntTok_intReprL vmax _ hmax (nonDigitHead_rbrace _)]
      simp only [Option.map_some, Option.map_some']
      rw [skipWs_cons_of_nonws (show isWsChar '\x7d' = false by decide)]
      rfl

theorem marshalMeta_shape (m : meta') (rest : List Char) :
    marshalMeta m ++ rest =
      '\x7b' :: ('"' :: (escapeString "minNumArgs" ++ '"' :: ':' ::
        (intReprL m.MinNumArgs ++ ',' :: '"' :: (escapeString "maxNumArgs" ++ '"' :: ':' ::
          (intReprL m.MaxNumArgs ++ '\x7d' :: rest))))) := by
  rw [marshalMeta]
  have h1 : "\x7b\"minNumArgs\":".data
      = '\x7b' :: '"' :: (escapeString "minNumArgs" ++ ['"', ':']) := by decide
  have h2 : ",\"maxNumArgs\":".data
      = ',' :: '"' :: (escapeString "maxNumArgs" ++ ['"', ':']) := by decide
  rw [h1, h2]
  simp [List.append_assoc, List.cons_append]

theorem parseMetaObj_step (t : List Char) (acc : meta') :
    parseMetaObj ('\x7b' :: '"' :: t) acc
      = parseMetaFields (('"' :: t).length + 1) ('"' :: t) acc := rfl

theorem parseMetaObj_marshal (m : meta') (acc : meta') (rest : List Char)
    (hmin : isInt64 m.MinNumArgs = true) (hmax : isInt64 m.MaxNumArgs = true) :
    parseMetaObj (marshalMeta m ++ rest) acc = some (m, rest) := by
  rw [marshalMeta_shape, parseMetaObj_step]
  exact parseMetaFields_two acc m.MinNumArgs m.MaxNumArgs hmin hmax rest _ (by simp)

theorem marshalCmd_shape (c : jsonCmd) (rest : List Char) :
    marshalCmd c ++ rest =
      '\x7b' :: '"' :: (escapeString "commandName" ++ '"' :: ':' :: '"' ::
        (escapeString c.Name ++ '"' :: ',' :: '"' ::
          (escapeString "scriptName" ++ '"' :: ':' :: '"' ::
            (escapeString c.Script ++ '"' :: ',' :: '"' ::
              (escapeString "options" ++ '"' :: ':' ::
                (marshalMeta c.Meta ++ '\x7d' :: rest)))))) := by
  rw [marshalCmd]
  have h1 : "\x7b\"commandName\":\"".data
      = '\x7b' :: '"' :: (escapeString "commandName" ++ ['"', ':', '"']) := by decide
  have h2 : "\",\"scriptName\":\"".data
      = '"' :: ',' :: '"' :: (escapeString "scriptName" ++ ['"', ':', '"']) := by decide
  have h3 : "\",\"options\":".data
      = '"' :: ',' :: '"' :: (escapeString "options" ++ ['"', ':']) := by decide
  rw [h1, h2, h3]
  simp [List.append_assoc, List.cons_append]

theorem parseMetaObj_marshal2 (m : meta')
    (hmin : isInt64 m.MinNumArgs = true) (hmax : isInt64 m.MaxNumArgs = true) :
    ∀ macc trest,
    parseMetaObj ('\x7b' :: ('"' :: (escapeString "minNumArgs" ++ '"' :: ':' ::
        (intReprL m.MinNumArgs ++ ',' :: '"' :: (escapeString "maxNumArgs" ++ '"' :: ':' ::
          (intReprL m.MaxNumArgs ++ '\x7d' :: trest)))))) macc = some (m, trest) := by
  intro macc trest
  rw [← marshalMeta_shape]
  exact parseMetaObj_marshal m macc trest hmin hmax

theorem parseCmdFields_three (acc : jsonCmd) (nm sc : String) (m : meta')
    (hmin : isInt64 m.MinNumArgs = true) (hmax : isInt64 m.MaxNumArgs = true)
    (rest : List Char) :
    ∀ f, 3 ≤ f →
    parseCmdFields f
      ('"' :: (escapeString "commandName" ++ '"' :: ':' :: '"' ::
        (escapeString nm ++ '"' :: ',' :: '"' ::
          (escapeString "scriptName" ++ '"' :: ':' :: '"' ::
            (escapeString sc ++ '"' :: ',' :: '"' ::
              (escapeString "options" ++ '"' :: ':' ::
                (marshalMeta m ++ '\x7d' :: rest))))))) acc
      = some ({ Name := nm, Script := sc, Meta := m }, rest) := by
  intro f hf
  have hsq := skipWs_cons_of_nonws (show isWsChar '"' = false by decide)
  have hsc := skipWs_cons_of_nonws (show isWsChar ':' = false by decide)
  have hscm := skipWs_cons_of_nonws (show isWsChar ',' = false by decide)
  have hsbr := skipWs_cons_of_nonws (show isWsChar '\x7b' = false by decide)
  have hsbrc := skipWs_cons_of_nonws (show isWsChar '\x7d' = false by decide)
  have hnull : ∀ t : List Char, parseNull? ('"' :: t) = none := by
    intro t
    exact parseNull?_of_head_ne _ (by simp)
  have hnullb : ∀ t : List Char, parseNull? ('\x7b' :: t) = none := by
    intro t
    exact parseNull?_of_head_ne _ (by simp)
  match f, hf with
  | f + 1, hf =>
    simp only [parseCmdFields, hsq, hsc, hscm, parseJString_escape, hnull,
      Option.map_some, Option.map_some', if_true]
    match f, hf with
    | f + 1, hf =>
      simp only [parseCmdFields, hsq, hsc, hscm, parseJString_escape, hnull,
        Option.map_some, Option.map_some', if_true,
        if_neg (show ¬("scriptName" = "commandName") by decide)]
      match f, hf with
      | f + 1, _ =>
        simp only [parseCmdFields, hsq, hsc, hscm, parseJString_escape,
          if_neg (show ¬("options" = "commandName") by decide),
          if_neg (show ¬("options" = "scriptName") by decide), if_true,
          marshalMeta_shape, hsbr, hsbrc, hnullb,
          parseMetaObj_marshal2 m hmin hmax,
          Option.map_some, Option.map_some']

theorem parseCmdObj_step (t : List Char) :
    parseCmdObj ('\x7b' :: '"' :: t)
      = parseCmdFields (('"' :: t).length + 1) ('"' :: t) zeroCmd := rfl

theorem parseCmdObj_marshal (c : jsonCmd) (rest : List Char)
    (hc : validCmd c = true) :
    parseCmdObj (marshalCmd c ++ rest) = some (c, rest) := by
  simp only [validCmd, Bool.and_eq_true] at hc
  rw [marshalCmd_shape, parseCmdObj_step]
  refine parseCmdFields_three zeroCmd c.Name c.Script c.Meta hc.1 hc.2 rest _ ?_
  simp
  omega

/-! ## Whole-array roundtrip -/

theorem parseCmdObj_marshal2 (c : jsonCmd) (hc : validCmd c = true) :
    ∀ trest,
    parseCmdObj ('\x7b' :: '"' :: (escapeString "commandName" ++ '"' :: ':' :: '"' ::
        (escapeString c.Name ++ '"' :: ',' :: '"' ::
          (escapeString "scriptName" ++ '"' :: ':' :: '"' ::
            (escapeString c.Script ++ '"' :: ',' :: '"' ::
              (escapeString "options" ++ '"' :: ':' ::
                (marshalMeta c.Meta ++ '\x7d' :: trest))))))) = some (c, trest) := by
  intro trest
  rw [← marshalCmd_shape]
  exact parseCmdObj_marshal c trest hc

theorem serializeBody_eq_bodyTail :
    ∀ (cs : List jsonCmd) (c : jsonCmd) (rest : List Char),
    serializeBody (c :: cs) ++ ']' :: rest = marshalCmd c ++ bodyTail cs rest := by
  intro cs
  induction cs with
  | nil =>
    intro c rest
    simp [serializeBody, bodyTail]
  | cons d ds ih =>
    intro c rest
    show (marshalCmd c ++ ',' :: serializeBody (d :: ds)) ++ ']' :: rest = _
    rw [List.append_assoc, List.cons_append]
    rw [show serializeBody (d :: ds) ++ ']' :: rest = marshalCmd d ++ bodyTail ds rest from ih d rest]
    rfl

theorem parseRecordsLoop_bodyTail :
    ∀ (cs : List jsonCmd), (∀ x ∈ cs, validCmd x = true) →
    ∀ (rest : List Char) (f : Nat), cs.length < f →
    parseRecordsLoop f (bodyTail cs rest) false = some (cs, rest) := by
  intro cs
  induction cs with
  | nil =>
    intro _ rest f hf
    match f, hf with
    | f + 1, _ =>
      show parseRecordsLoop (f + 1) (']' :: rest) false = some ([], rest)
      simp [parseRecordsLoop, skipWs_cons_of_nonws (show isWsChar ']' = false by decide)]
  | cons c cs ih =>
    intro hval rest f hf
    match f, hf with
    | f + 1, hf =>
      show parseRecordsLoop (f + 1) (',' :: (marshalCmd c ++ bodyTail cs rest)) false = _
      rw [marshalCmd_shape]
      have hfu : cs.length < f := by
        simp only [List.length_cons] at hf
        omega
      simp [parseRecordsLoop,
        skipWs_cons_of_nonws (show isWsChar ',' = false by decide),
        parseCmdObj_marshal2 c (hval c (by simp)),
        ih (fun x hx => hval x (by simp [hx])) rest f hfu]

theorem parseRecordsLoop_serialize (recs : List jsonCmd)
    (hval : ∀ x ∈ recs, validCmd x = true) (rest : List Char) (f : Nat)
    (hf : recs.length < f) :
    parseRecordsLoop f (serializeBody recs ++ ']' :: rest) true = some (recs, rest) := by
  cases recs with
  | nil =>
    match f, hf with
    | f + 1, _ =>
      show parseRecordsLoop (f + 1) (']' :: rest) true = some ([], rest)
      simp [parseRecordsLoop, skipWs_cons_of_nonws (show isWsChar ']' = false by decide)]
  | cons c cs =>
    match f, hf with
    | f + 1, hf =>
      rw [serializeBody_eq_bodyTail cs c rest, marshalCmd_shape]
      have hfu : cs.length < f := by
        simp only [List.length_cons] at hf
        omega
      simp [parseRecordsLoop,
        skipWs_cons_of_nonws (show isWsChar '\x7b' = false by decide),
        parseCmdObj_marshal2 c (hval c (by simp)),
        parseRecordsLoop_bodyTail cs (fun x hx => hval x (by simp [hx])) rest f hfu]

theorem marshalCmd_length_pos (c : jsonCmd) : 1 ≤ (marshalCmd c).length := by
  rw [marshalCmd]
  simp

theorem serializeBody_length_ge :
    ∀ (recs : List jsonCmd), recs.length ≤ (serializeBody recs).length + 1 := by
  intro recs
  induction recs with
  | nil => simp [serializeBody]
  | cons c cs ih =>
    cases cs with
    | nil =>
      simp [serializeBody]
    | cons d ds =>
      have h1 := marshalCmd_length_pos c
      show (d :: ds).length + 1 ≤ (marshalCmd c ++ ',' :: serializeBody (d :: ds)).length + 1
      simp only [List.length_append, List.length_cons] at *
      omega

theorem decodeIndex_serializeIndex (recs : List jsonCmd)
    (hval : ∀ x ∈ recs, validCmd x = true) :
    decodeIndex (serializeIndex recs) = .ok recs := by
  show decodeIndex ('[' :: (serializeBody recs ++ [']'])) = .ok recs
  have hshape : serializeBody recs ++ [']'] = serializeBody recs ++ ']' :: [] := rfl
  simp only [decodeIndex, skipWs_cons_of_nonws (show isWsChar '[' = false by decide), hshape]
  rw [parseRecordsLoop_serialize recs hval [] _ (by
    have := serializeBody_length_ge recs
    simp only [List.length_append, List.length_cons, List.length_nil]
    omega)]
  simp

/-! ## Bridge from the byte-level rewriter loop to record-level semantics -/

theorem modLoop_eq_recLoop {σ : Type} (fn : ModFn σ) :
    ∀ (f : Nat) (s : List Char) (firstIn : Bool) (recs : List jsonCmd)
      (rest : List Char) (another : Bool) (out : List Char) (st : σ) (fs : FS),
    parseRecordsLoop f s firstIn = some (recs, rest) →
    modLoop fn f s firstIn another out st fs =
      (match recLoop fn recs another out st with
       | (r, some content, st') => (r, { index := content, tmp := none }, st')
       | (r, none, st') => (r, modAbort fs, st')) := by
  intro f
  induction f with
  | zero =>
    intro s firstIn recs rest another out st fs h
    simp [parseRecordsLoop] at h
  | succ f ih =>
    intro s firstIn recs rest another out st fs h
    cases hs : skipWs s with
    | nil =>
      simp only [parseRecordsLoop, hs] at h
      obtain ⟨hrecs, hrest⟩ : [] = recs ∧ [] = rest := by simpa using h
      subst hrecs
      simp [modLoop, hs, recLoop]
    | cons c t =>
      by_cases hc1 : c = ']'
      · subst hc1
        simp only [parseRecordsLoop, hs, if_pos rfl] at h
        obtain ⟨hrecs, hrest⟩ : [] = recs ∧ t = rest := by simpa using h
        subst hrecs
        simp [modLoop, hs, recLoop]
      · by_cases hc2 : c = '\x7d'
        · subst hc2
          simp only [parseRecordsLoop, hs, if_neg hc1, if_pos rfl] at h
          obtain ⟨hrecs, hrest⟩ : [] = recs ∧ '\x7d' :: t = rest := by simpa using h
          subst hrecs
          simp [modLoop, hs, hc1, recLoop]
        · simp only [parseRecordsLoop, hs, if_neg hc1, if_neg hc2] at h
          simp only [modLoop, hs, if_neg hc1, if_neg hc2]
          have main :
              ∀ s2 : List Char,
              (match parseCmdObj s2 with
                | none => none
                | some (cmd, rest2) =>
                  (parseRecordsLoop f rest2 false).map (fun p => (cmd :: p.1, p.2)))
                  = some (recs, rest) →
              (match parseCmdObj s2 with
                | none => ((.error .syntaxError : Except GoErr Unit), modAbort fs, st)
                | some (cmd, rest2) =>
                  match fn cmd st with
                  | ((inc, esc, some e), _, st') => (.error e, modAbort fs, st')
                  | ((inc, true, none), _, st') => (.ok (), modAbort fs, st')
                  | ((true, false, none), cmd', st') =>
                    modLoop fn f rest2 false true
                      (out ++ (if another then [','] else []) ++ marshalCmd cmd') st' fs
                  | ((false, false, none), _, st') =>
                    modLoop fn f rest2 false another out st' fs)
                = (match recLoop fn recs another out st with
                   | (r, some content, st') => (r, { index := content, tmp := none }, st')
                   | (r, none, st') => (r, modAbort fs, st')) := by
            intro s2 hp
            cases hobj : parseCmdObj s2 with
            | none =>
              rw [hobj] at hp
              simp at hp
            | some p =>
              obtain ⟨cmd, rest2⟩ := p
              rw [hobj] at hp
              dsimp only at hp
              cases hpl : parseRecordsLoop f rest2 false with
              | none =>
                rw [hpl] at hp
                simp at hp
              | some q =>
                obtain ⟨recs', rest'⟩ := q
                rw [hpl] at hp
                simp only [Option.map_some, Option.map_some', Option.some.injEq,
                  Prod.mk.injEq] at hp
                obtain ⟨hrecs, hrest⟩ := hp
                subst hrecs
                subst hrest
                rcases hfn : fn cmd st with ⟨⟨inc, esc, err⟩, cmd', st'⟩
                dsimp only
                rw [hfn]
                simp only [recLoop, hfn]
                cases inc <;> cases esc <;> cases err <;>
                  first
                    | rfl
                    | exact ih rest2 false recs' rest' true _ st' fs hpl
                    | exact ih rest2 false recs' rest' another out st' fs hpl
          cases firstIn with
          | true =>
            rw [if_pos rfl] at h ⊢
            exact main _ h
          | false =>
            by_cases hc3 : c = ','
            · subst hc3
              rw [if_neg (show ¬(false = true) by decide), if_pos rfl] at h ⊢
              exact main _ h
            · rw [if_neg (show ¬(false = true) by decide), if_neg hc3] at h
              simp at h

/-! ## Record-level semantics of full and aborted runs -/

theorem marshalCmd_glueBody (c : jsonCmd) (l : List jsonCmd) :
    marshalCmd c ++ glueBody true l = serializeBody (c :: l) := by
  cases l with
  | nil => simp [glueBody, serializeBody]
  | cons d ds =>
    show marshalCmd c ++ (',' :: serializeBody (d :: ds)) = _
    rfl

theorem glueBody_false (l : List jsonCmd) : glueBody false l = serializeBody l := by
  cases l with
  | nil => rfl
  | cons d ds => simp [glueBody]

theorem recLoop_run {σ : Type} (fn : ModFn σ) :
    ∀ (recs : List jsonCmd) (st : σ), runOk fn recs st = true →
    ∀ (another : Bool) (out : List Char),
    recLoop fn recs another out st =
      (.ok (), some (out ++ glueBody another (modOuts fn recs st) ++ [']']),
        modFinalSt fn recs st) := by
  intro recs
  induction recs with
  | nil =>
    intro st hok another out
    simp [recLoop, modOuts, glueBody, modFinalSt]
  | cons c cs ih =>
    intro st hok another out
    rcases hfn : fn c st with ⟨⟨inc, esc, err⟩, cmd', st'⟩
    rw [runOk] at hok
    rw [hfn] at hok
    simp only [Bool.and_eq_true, Bool.not_eq_true', Option.isNone_iff_eq_none] at hok
    obtain ⟨⟨hesc, herr⟩, hrun⟩ := hok
    subst hesc
    subst herr
    have houts : modOuts fn (c :: cs) st =
        if inc then cmd' :: modOuts fn cs st' else modOuts fn cs st' := by
      rw [modOuts, hfn]
    have hst : modFinalSt fn (c :: cs) st = modFinalSt fn cs st' := by
      rw [modFinalSt, hfn]
    cases inc with
    | true =>
      rw [recLoop, hfn]
      dsimp only
      rw [ih st' hrun true _, houts, hst]
      simp only [if_true]
      simp only [glueBody, ← marshalCmd_glueBody, List.append_assoc]
    | false =>
      rw [recLoop, hfn]
      dsimp only
      rw [ih st' hrun another out, houts, hst]
      simp

theorem recLoop_error {σ : Type} (fn : ModFn σ) :
    ∀ (recs : List jsonCmd) (st : σ) (e : GoErr), modRunsToError fn recs st = some e →
    ∀ (another : Bool) (out : List Char),
    ∃ st', recLoop fn recs another out st = (.error e, none, st') := by
  intro recs
  induction recs with
  | nil =>
    intro st e h another out
    simp [modRunsToError] at h
  | cons c cs ih =>
    intro st e h another out
    rcases hfn : fn c st with ⟨⟨inc, esc, err⟩, cmd', st'⟩
    rw [modRunsToError] at h
    rw [hfn] at h
    cases err with
    | some e0 =>
      cases esc <;> cases inc <;>
        (dsimp only at h
         injection h with he
         subst he
         refine ⟨st', ?_⟩
         rw [recLoop, hfn])
    | none =>
      cases esc with
      | true =>
        cases inc <;>
          (dsimp only at h
           exact absurd h (by simp))
      | false =>
        cases inc with
        | true =>
          dsimp only at h
          obtain ⟨st'', hst''⟩ :=
            ih st' e h true (out ++ (if another then [','] else []) ++ marshalCmd cmd')
          refine ⟨st'', ?_⟩
          rw [recLoop, hfn]
          dsimp only
          exact hst''
        | false =>
          dsimp only at h
          obtain ⟨st'', hst''⟩ := ih st' e h another out
          refine ⟨st'', ?_⟩
          rw [recLoop, hfn]
          dsimp only
          exact hst''

theorem decodeIndex_ok_elim (content : List Char) (recs : List jsonCmd)
    (h : decodeIndex content = .ok recs) :
    ∃ rest rest', skipWs content = '[' :: rest ∧
      parseRecordsLoop (rest.length + 1) rest true = some (recs, rest') := by
  unfold decodeIndex at h
  cases hs : skipWs content with
  | nil =>
    rw [hs] at h
    exact absurd h (by simp)
  | cons c rest =>
    rw [hs] at h
    dsimp only at h
    by_cases hc : c = '['
    · subst hc
      rw [if_pos rfl] at h
      cases hpl : parseRecordsLoop (rest.length + 1) rest true with
      | none =>
        rw [hpl] at h
        exact absurd h (by simp)
      | some q =>
        obtain ⟨recs0, rest'⟩ := q
        rw [hpl] at h
        dsimp only at h
        injection h with he
        subst he
        exact ⟨rest, rest', rfl, hpl⟩
    · rw [if_neg hc] at h
      exact absurd h (by simp)

theorem modOperation_run {σ : Type} (fn : ModFn σ) (s0 : σ) (fs : FS)
    (recs : List jsonCmd) (hdec : decodeIndex fs.index = .ok recs)
    (hok : runOk fn recs s0 = true) :
    modOperation fn s0 fs =
      (.ok (), { index := serializeIndex (modOuts fn recs s0), tmp := none },
        modFinalSt fn recs s0) := by
  obtain ⟨rest, rest', hs, hpl⟩ := decodeIndex_ok_elim fs.index recs hdec
  unfold modOperation
  rw [hs]
  dsimp only
  rw [if_pos rfl,
    modLoop_eq_recLoop fn _ rest true recs rest' false ['['] s0 _ hpl,
    recLoop_run fn recs s0 hok false ['[']]
  dsimp only
  rw [glueBody_false]
  rfl

theorem modOperation_err {σ : Type} (fn : ModFn σ) (s0 : σ) (fs : FS)
    (recs : List jsonCmd) (e : GoErr) (hdec : decodeIndex fs.index = .ok recs)
    (herr : modRunsToError fn recs s0 = some e) :
    ∃ st', modOperation fn s0 fs = (.error e, { index := fs.index, tmp := none }, st') := by
  obtain ⟨rest, rest', hs, hpl⟩ := decodeIndex_ok_elim fs.index recs hdec
  obtain ⟨st', hrl⟩ := recLoop_error fn recs s0 e herr false ['[']
  refine ⟨st', ?_⟩
  unfold modOperation
  rw [hs]
  dsimp only
  rw [if_pos rfl,
    modLoop_eq_recLoop fn _ rest true recs rest' false ['['] s0 _ hpl, hrl]
  rfl

/-! ## Callback-run helper lemmas -/

theorem runOk_of_never {σ : Type} (fn : ModFn σ)
    (hcb : ∀ c s, (fn c s).1.2.1 = false ∧ (fn c s).1.2.2 = none) :
    ∀ (recs : List jsonCmd) (st : σ), runOk fn recs st = true := by
  intro recs
  induction recs with
  | nil => intro st; rfl
  | cons c cs ih =>
    intro st
    rw [runOk]
    simp [(hcb c st).1, (hcb c st).2, ih]

theorem modOuts_valid {σ : Type} (fn : ModFn σ)
    (hvalcb : ∀ c s, validCmd c = true → validCmd (fn c s).2.1 = true) :
    ∀ (recs : List jsonCmd) (st : σ), (∀ r ∈ recs, validCmd r = true) →
      ∀ r ∈ modOuts fn recs st, validCmd r = true := by
  intro recs
  induction recs with
  | nil => intro st _ r hr; simp [modOuts] at hr
  | cons c cs ih =>
    intro st hval r hr
    rcases hfn : fn c st with ⟨⟨inc, esc, err⟩, c', st'⟩
    rw [modOuts, hfn] at hr
    have hc' : validCmd c' = true := by
      have h := hvalcb c st (hval c (by simp))
      rw [hfn] at h
      exact h
    have htail : ∀ r ∈ cs, validCmd r = true := fun r hm => hval r (by simp [hm])
    cases inc with
    | true =>
      rcases (by simpa using hr : r = c' ∨ r ∈ modOuts fn cs st') with h | h
      · subst h; exact hc'
      · exact ih st' htail r h
    | false =>
      exact ih st' htail r (by simpa using hr)

/-! ## C1: failure atomicity of the update engines -/

/-- C1: failure atomicity. For every index file that decodes as a record
stream, if the rewriter's per-record callback run reaches an error, the
operation propagates exactly that error, the index bytes afterwards are
identical to before the call, and no temporary file remains. Likewise,
when the append engine finds no closing bracket in its ten-byte tail
window, it fails with the format error and the file state is returned
completely intact. -/
theorem c1_update_engines_failure_atomicity :
    (∀ (σ : Type) (fn : ModFn σ) (s0 : σ) (fs : FS) (recs : List jsonCmd) (e : GoErr),
      decodeIndex fs.index = .ok recs →
      modRunsToError fn recs s0 = some e →
      (modOperation fn s0 fs).1 = .error e ∧
        (modOperation fn s0 fs).2.1 = { index := fs.index, tmp := none })
    ∧ (∀ (fs : FS) (raw : List Char),
      10 ≤ fs.index.length →
      (fs.index.drop (fs.index.length - 10)).findIdx? (fun c => c = ']') = none →
      appendToIndex fs raw = (.error .formatError, fs)) := by
  constructor
  · intro σ fn s0 fs recs e hdec herr
    obtain ⟨st', hmod⟩ := modOperation_err fn s0 fs recs e hdec herr
    rw [hmod]
    exact ⟨rfl, rfl⟩
  · intro fs raw hlen hfind
    simp only [appendToIndex]
    rw [if_neg (by omega), if_neg (by omega), hfind]

/-- Closed witness for C1 at concrete inputs: an always-erroring callback
over a one-record index aborts with the error and the untouched file, and
an append on a ten-byte window with no closing bracket fails with the
format error and an intact file. -/
theorem c1_update_engines_failure_atomicity_witness :
    ((modOperation errFn () ⟨serializeIndex [recBuild], none⟩).1 = .error .atoiError ∧
      (modOperation errFn () ⟨serializeIndex [recBuild], none⟩).2.1 =
        { index := (⟨serializeIndex [recBuild], none⟩ : FS).index, tmp := none })
    ∧ appendToIndex ⟨"0123456789".data, none⟩ [] =
        (.error .formatError, ⟨"0123456789".data, none⟩) :=
  ⟨c1_update_engines_failure_atomicity.1 Unit errFn () ⟨serializeIndex [recBuild], none⟩
      [recBuild] .atoiError (by decide) (by decide),
    c1_update_engines_failure_atomicity.2 ⟨"0123456789".data, none⟩ [] (by decide) (by decide)⟩

/-! ## C2: `Find` and the pointer-rebinding bug -/

/-- C2: `Find` on an index containing a record named `build` does return
success, and the no-match run does return the distinguished
`CmdNotFoundErr`; but the caller-supplied record is NOT filled with the
matching record — the callback's `lCmd = cmd` rebinds the captured local
pointer instead of writing through it, so the caller still holds the
zero-valued record it passed in, which differs from the matching record. -/
theorem c2_find_does_not_store_match :
    Find (serializeIndex [recBuild]) "build" zeroCmd = (.ok (), zeroCmd)
    ∧ zeroCmd ≠ recBuild
    ∧ Find (serializeIndex [recBuild]) "nope" zeroCmd = (.error .cmdNotFound, zeroCmd) := by
  decide

/-! ## C5: commit semantics of a full, never-aborting rewrite -/

/-- C5: for every index file decoding as a record stream and every
callback that never errors and never escapes, `modOperation` commits
(rename, temporary file gone) an index holding exactly the serialized
array of the records the callback included — each in its post-callback
state, in original file order (`modOuts fn recs s0` is by definition that
filtered, in-order list) — and that output decodes as a JSON array of
exactly those records. Record validity (`int64`-ranged bounds, the only
values Go's `int` can hold) is carried as an explicit hypothesis of the
character-level model. -/
theorem c5_mod_operation_commit_semantics {σ : Type} (fn : ModFn σ) (s0 : σ)
    (fs : FS) (recs : List jsonCmd)
    (hdec : decodeIndex fs.index = .ok recs)
    (hval : ∀ r ∈ recs, validCmd r = true)
    (hcb : ∀ c s, (fn c s).1.2.1 = false ∧ (fn c s).1.2.2 = none)
    (hvalcb : ∀ c s, validCmd c = true → validCmd (fn c s).2.1 = true) :
    modOperation fn s0 fs =
      (.ok (), { index := serializeIndex (modOuts fn recs s0), tmp := none },
        modFinalSt fn recs s0)
    ∧ decodeIndex (serializeIndex (modOuts fn recs s0)) = .ok (modOuts fn recs s0) := by
  refine ⟨modOperation_run fn s0 fs recs hdec (runOk_of_never fn hcb recs s0), ?_⟩
  exact decodeIndex_serializeIndex (modOuts fn recs s0) (modOuts_valid fn hvalcb recs s0 hval)

/-- Closed witness for C5: the always-include identity callback over a
one-record index commits the same serialized array, which decodes back to
the same record list. -/
theorem c5_mod_operation_commit_semantics_witness :
    modOperation inclFn () ⟨serializeIndex [recBuild], none⟩ =
      (.ok (), { index := serializeIndex (modOuts inclFn [recBuild] ()), tmp := none },
        modFinalSt inclFn [recBuild] ())
    ∧ decodeIndex (serializeIndex (modOuts inclFn [recBuild] ())) =
        .ok (modOuts inclFn [recBuild] ()) :=
  c5_mod_operation_commit_semantics inclFn () ⟨serializeIndex [recBuild], none⟩ [recBuild]
    (by decide) (by decide) (fun c s => ⟨rfl, rfl⟩) (fun c s h => h)

/-! ## Output-shape machinery for successful rewrites -/

theorem serializeBody_append_one (c : jsonCmd) :
    ∀ l : List jsonCmd, l ≠ [] →
      serializeBody (l ++ [c]) = serializeBody l ++ ',' :: marshalCmd c := by
  intro l
  induction l with
  | nil => intro h; exact absurd rfl h
  | cons a t ih =>
    intro _
    cases t with
    | nil => simp [serializeBody]
    | cons b t' =>
      show marshalCmd a ++ ',' :: serializeBody ((b :: t') ++ [c]) =
        (marshalCmd a ++ ',' :: serializeBody (b :: t')) ++ ',' :: marshalCmd c
      rw [ih (by simp)]
      simp

theorem modifyFn_never_esc (wd name : String) (ua : List String) :
    ∀ c hit, ((modifyFn wd name ua) c hit).1.2.1 = false := by
  intro c hit
  unfold modifyFn
  split
  · rfl
  · dsimp only
    split <;> rfl

theorem deleteFn_never_esc (excl : List String) :
    ∀ c rm, ((deleteFn excl) c rm).1.2.1 = false := by
  intro c rm
  unfold deleteFn
  split <;> rfl

theorem tidyFn_never_esc (scriptDp : String) (taken : List String)
    (renameOk : String → String → Bool) :
    ∀ c log, ((tidyFn scriptDp taken renameOk) c log).1.2.1 = false := by
  intro c log
  unfold tidyFn
  split
  · rfl
  · dsimp only
    split <;> split <;> rfl

theorem modLoop_ok_shape {σ : Type} (fn : ModFn σ)
    (hesc : ∀ c s, (fn c s).1.2.1 = false) :
    ∀ (f : Nat) (s : List Char) (firstIn another : Bool) (l : List jsonCmd)
      (st : σ) (fs : FS) (fs' : FS) (st' : σ),
      (another = true ↔ l ≠ []) →
      modLoop fn f s firstIn another ('[' :: serializeBody l) st fs = (.ok (), fs', st') →
      ∃ outs, fs'.index = serializeIndex outs := by
  intro f
  induction f with
  | zero =>
    intro s firstIn another l st fs fs' st' hinv h
    exact absurd h (by simp [modLoop])
  | succ f ih =>
    intro s firstIn another l st fs fs' st' hinv h
    cases hs : skipWs s with
    | nil =>
      simp only [modLoop, hs] at h
      injection h with h1 h23
      injection h23 with h2 h3
      exact ⟨l, by subst h2; rfl⟩
    | cons c t =>
      by_cases hc1 : c = ']'
      · subst hc1
        simp only [modLoop, hs, if_pos] at h
        injection h with h1 h23
        injection h23 with h2 h3
        exact ⟨l, by subst h2; rfl⟩
      · by_cases hc2 : c = '\x7d'
        · subst hc2
          simp only [modLoop, hs, if_neg hc1, if_pos] at h
          injection h with h1 h23
          injection h23 with h2 h3
          exact ⟨l, by subst h2; rfl⟩
        · simp only [modLoop, hs, if_neg hc1, if_neg hc2] at h
          have main : ∀ s2 : List Char,
              (match parseCmdObj s2 with
                | none => ((.error .syntaxError : Except GoErr Unit), modAbort fs, st)
                | some (cmd, rest2) =>
                  match fn cmd st with
                  | ((inc, esc, some e), _, st2) => (.error e, modAbort fs, st2)
                  | ((inc, true, none), _, st2) => (.ok (), modAbort fs, st2)
                  | ((true, false, none), cmd', st2) =>
                    modLoop fn f rest2 false true
                      (('[' :: serializeBody l) ++ (if another then [','] else []) ++
                        marshalCmd cmd') st2 fs
                  | ((false, false, none), _, st2) =>
                    modLoop fn f rest2 false another ('[' :: serializeBody l) st2 fs)
                = (.ok (), fs', st') →
              ∃ outs, fs'.index = serializeIndex outs := by
            intro s2 hm
            cases hobj : parseCmdObj s2 with
            | none =>
              rw [hobj] at hm
              exact absurd hm (by simp)
            | some p =>
              obtain ⟨cmd, rest2⟩ := p
              rw [hobj] at hm
              dsimp only at hm
              rcases hfn : fn cmd st with ⟨⟨inc, esc, err⟩, cmd', st2⟩
              rw [hfn] at hm
              have hescf : esc = false := by
                have h0 := hesc cmd st
                rw [hfn] at h0
                exact h0
              subst hescf
              cases err with
              | some e =>
                cases inc <;> simp at hm
              | none =>
                cases inc with
                | true =>
                  dsimp only at hm
                  have happ :
                      ('[' :: serializeBody l) ++ (if another then [','] else []) ++
                        marshalCmd cmd' = '[' :: serializeBody (l ++ [cmd']) := by
                    cases another with
                    | true =>
                      rw [serializeBody_append_one cmd' l (hinv.mp rfl)]
                      simp
                    | false =>
                      have hl : l = [] := by
                        by_contra hne
                        exact absurd (hinv.mpr hne) (by decide)
                      subst hl
                      simp [serializeBody]
                  rw [happ] at hm
                  exact ih rest2 false true (l ++ [cmd']) st2 fs fs' st' (by simp) hm
                | false =>
                  dsimp only at hm
                  exact ih rest2 false another l st2 fs fs' st' hinv hm
          cases firstIn with
          | true =>
            rw [if_pos rfl] at h
            exact main _ h
          | false =>
            by_cases hc3 : c = ','
            · subst hc3
              rw [if_neg (show ¬(false = true) by decide), if_pos rfl] at h
              exact main _ h
            · rw [if_neg (show ¬(false = true) by decide), if_neg hc3] at h
              exact absurd h (by simp)

theorem modOperation_ok_shape {σ : Type} (fn : ModFn σ)
    (hesc : ∀ c s, (fn c s).1.2.1 = false)
    (s0 : σ) (fs fs' : FS) (st' : σ)
    (h : modOperation fn s0 fs = (.ok (), fs', st')) :
    ∃ outs, fs'.index = serializeIndex outs := by
  unfold modOperation at h
  cases hs : skipWs fs.index with
  | nil =>
    rw [hs] at h
    exact absurd h (by simp)
  | cons c rest =>
    rw [hs] at h
    dsimp only at h
    by_cases hc : c = '['
    · rw [if_pos hc] at h
      exact modLoop_ok_shape fn hesc (rest.length + 1) rest true false [] s0
        { fs with tmp := some [] } fs' st' (by simp) h
    · rw [if_neg hc] at h
      exact absurd h (by simp)

/-! ## C10: canonical output of every successful rewrite -/

/-- C10: normalization invariant of the rewriter. After every successful
`ModifyCmd`, `DeleteCmd` or `TidyCmd` run, the index file is exactly
`serializeIndex outs` for some record list — the compact JSON array
(`'['`, elements separated by bare commas, `']'`, no whitespace) whose
elements are `marshalCmd` records carrying exactly the four fields
`commandName`, `scriptName`, `options.minNumArgs`, `options.maxNumArgs`
in that order: every record was decoded into the fixed `jsonCmd` struct
and re-marshalled, so unknown fields or formatting of the input are
gone. -/
theorem c10_rewrite_canonical_output :
    (∀ (wd : String) (fs : FS) (args : List String) (fs' : FS),
      ModifyCmd wd fs args = (.ok (), fs') →
      ∃ outs, fs'.index = serializeIndex outs)
    ∧ (∀ (fs : FS) (args : List String) (fs' : FS) (rep : List String),
      DeleteCmd fs args = (.ok (), fs', rep) →
      ∃ outs, fs'.index = serializeIndex outs)
    ∧ (∀ (scriptDp : String) (taken : List String)
        (renameOk : String → String → Bool) (fs : FS) (fs' : FS)
        (log : List TidyEvent),
      TidyCmd scriptDp taken renameOk fs = (.ok (), fs', log) →
      ∃ outs, fs'.index = serializeIndex outs) := by
  refine ⟨?_, ?_, ?_⟩
  · intro wd fs args fs' h
    cases args with
    | nil => exact absurd h (by simp [ModifyCmd])
    | cons name ua =>
      cases ua with
      | nil => exact absurd h (by simp [ModifyCmd])
      | cons u us =>
        simp only [ModifyCmd] at h
        rcases hmo : modOperation (modifyFn wd name (u :: us)) false fs with ⟨res, fs'', hit⟩
        rw [hmo] at h
        cases res with
        | error e => simp at h
        | ok r =>
          dsimp only at h
          cases hit with
          | false =>
            rw [if_pos (show ¬(false = true) by decide)] at h
            simp at h
          | true =>
            rw [if_neg (show ¬¬(true = true) by decide)] at h
            cases r
            injection h with h1 h2
            subst h2
            exact modOperation_ok_shape _ (modifyFn_never_esc wd name (u :: us))
              false fs fs'' true hmo
  · intro fs args fs' rep h
    cases args with
    | nil => exact absurd h (by simp [DeleteCmd])
    | cons a as =>
      simp only [DeleteCmd] at h
      rcases hmo : modOperation (deleteFn ((a :: as).foldl addUnique [])) [] fs
        with ⟨res, fs'', rm⟩
      rw [hmo] at h
      cases res with
      | error e => simp at h
      | ok r =>
        dsimp only at h
        cases r
        injection h with h1 h2
        injection h2 with h2a h2b
        subst h2a
        exact modOperation_ok_shape _ (deleteFn_never_esc ((a :: as).foldl addUnique []))
          [] fs fs'' rm hmo
  · intro scriptDp taken renameOk fs fs' log h
    exact modOperation_ok_shape _ (tidyFn_never_esc scriptDp taken renameOk)
      [] fs fs' log h

/-- Closed witness for C10: a sentinel-only modify run on `messyIndex` —
an input with whitespace between tokens, an unknown nested `extra` field
and foreign-case keys — plus a delete and a tidy on records the engine
wrote itself; each run succeeds and each output index is of the
canonical serialized-array shape, so the modify run demonstrably strips
the unknown field and the formatting. -/
theorem c10_rewrite_canonical_output_witness :
    (∃ outs, (FS.mk (serializeIndex [recBuild]) none).index = serializeIndex outs)
    ∧ (∃ outs, (FS.mk (serializeIndex []) none).index = serializeIndex outs)
    ∧ (∃ outs, (FS.mk (serializeIndex [recBuild]) none).index = serializeIndex outs) :=
  ⟨c10_rewrite_canonical_output.1 "/w" ⟨messyIndex, none⟩ ["build", "_"]
      ⟨serializeIndex [recBuild], none⟩ (by decide),
    c10_rewrite_canonical_output.2.1 ⟨serializeIndex [recBuild], none⟩ ["build"]
      ⟨serializeIndex [], none⟩ [] (by decide),
    c10_rewrite_canonical_output.2.2 "/s" [] (fun _ _ => true)
      ⟨serializeIndex [recBuild], none⟩ ⟨serializeIndex [recBuild], none⟩ [] (by decide)⟩

/-! ## C3 machinery: the ten-byte tail window of a serialized index -/

theorem not_rbracket_mem_natReprL (n : Nat) : ']' ∉ natReprL n := by
  intro h
  have hd := natReprL_all_digits n ']' h
  exact absurd hd (by decide)

theorem not_rbracket_mem_intReprL (m : Int) : ']' ∉ intReprL m := by
  intro h
  rw [intReprL] at h
  split at h
  · rcases List.mem_cons.mp h with h | h
    · exact absurd h (by decide)
    · exact not_rbracket_mem_natReprL _ h
  · exact not_rbracket_mem_natReprL _ h

theorem nb_no_rbracket (m : Int) :
    ']' ∉ (",\"maxNumArgs\":".data ++ intReprL m ++ ['\x7d', '\x7d']) := by
  intro h
  rcases List.mem_append.mp h with h1 | h2
  · rcases List.mem_append.mp h1 with ha | hb
    · exact absurd ha (by decide)
    · exact not_rbracket_mem_intReprL m hb
  · exact absurd h2 (by decide)

theorem nb_length (m : Int) :
    17 ≤ (",\"maxNumArgs\":".data ++ intReprL m ++ ['\x7d', '\x7d']).length := by
  have h1 : 1 ≤ (intReprL m).length := List.length_pos.mpr (intReprL_ne_nil m)
  have ha : (",\"maxNumArgs\":".data).length = 14 := rfl
  simp only [List.length_append, ha, List.length_cons, List.length_nil]
  omega

theorem marshalCmd_tail (c : jsonCmd) :
    marshalCmd c =
      ("\x7b\"commandName\":\"".data ++ escapeString c.Name ++
        "\",\"scriptName\":\"".data ++ escapeString c.Script ++
        "\",\"options\":".data ++ "\x7b\"minNumArgs\":".data ++
        intReprL c.Meta.MinNumArgs) ++
      (",\"maxNumArgs\":".data ++ intReprL c.Meta.MaxNumArgs ++ ['\x7d', '\x7d']) := by
  simp [marshalCmd, marshalMeta]

theorem body_tail_shape (l : List jsonCmd) (hl : l ≠ []) :
    ∃ (A : List Char) (m : Int),
      '[' :: serializeBody l =
        A ++ (",\"maxNumArgs\":".data ++ intReprL m ++ ['\x7d', '\x7d']) := by
  rcases List.eq_nil_or_concat l with rfl | ⟨l₀, c₀, rfl⟩
  · exact absurd rfl hl
  · obtain ⟨B, hB⟩ : ∃ B, marshalCmd c₀ =
        B ++ (",\"maxNumArgs\":".data ++ intReprL c₀.Meta.MaxNumArgs ++ ['\x7d', '\x7d']) :=
      ⟨_, marshalCmd_tail c₀⟩
    rw [List.concat_eq_append]
    cases l₀ with
    | nil =>
      exact ⟨'[' :: B, c₀.Meta.MaxNumArgs, by simp [serializeBody, hB]⟩
    | cons b bs =>
      refine ⟨'[' :: (serializeBody (b :: bs) ++ ',' :: B), c₀.Meta.MaxNumArgs, ?_⟩
      rw [serializeBody_append_one c₀ (b :: bs) (by simp)]
      simp [hB]

theorem findIdx_step (a : Char) (l : List Char) (i : Nat) :
    List.findIdx? (fun c => c = ']') (a :: l) i =
      if a = ']' then some i else List.findIdx? (fun c => c = ']') l (i + 1) := by
  rw [List.findIdx?_cons]
  simp

theorem findIdx_after_clean (t : List Char) :
    ∀ (w : List Char), ']' ∉ w → ∀ i : Nat,
      List.findIdx? (fun c => c = ']') (w ++ ']' :: t) i = some (i + w.length) := by
  intro w
  induction w with
  | nil =>
    intro _ i
    simp only [List.nil_append]
    rw [findIdx_step, if_pos rfl]
    simp
  | cons a w' ih =>
    intro hw i
    have ha : ¬(a = ']') := fun h => hw (by simp [h])
    simp only [List.cons_append]
    rw [findIdx_step, if_neg ha, ih (fun h => hw (List.mem_cons_of_mem a h)) (i + 1)]
    simp only [List.length_cons]
    congr 1
    omega

theorem appendToIndex_small (fs : FS) (raw : List Char) (h : fs.index.length ≤ 3) :
    appendToIndex fs raw =
      (.ok (), { fs with index := ('[' :: raw ++ [']']) ++ fs.index.drop (raw.length + 2) }) := by
  simp only [appendToIndex]
  rw [if_pos h]

theorem appendToIndex_patch (A nb raw : List Char)
    (hnb : ']' ∉ nb) (hnblen : 17 ≤ nb.length) :
    appendToIndex ⟨(A ++ nb) ++ [']'], none⟩ raw =
      (.ok (), ⟨(A ++ nb) ++ ',' :: raw ++ [']'], none⟩) := by
  have hlen : ((A ++ nb) ++ ([']'] : List Char)).length = A.length + nb.length + 1 := by
    simp
    omega
  simp only [appendToIndex]
  rw [if_neg (by rw [hlen]; omega), if_neg (by rw [hlen]; omega)]
  have hoff : ((A ++ nb) ++ ([']'] : List Char)).length - 10 =
      A.length + (nb.length - 9) := by
    rw [hlen]; omega
  rw [hoff]
  have hwin : ((A ++ nb) ++ [']']).drop (A.length + (nb.length - 9)) =
      nb.drop (nb.length - 9) ++ [']'] := by
    rw [List.drop_append_eq_append_drop, List.drop_append_eq_append_drop,
      List.drop_eq_nil_of_le (show A.length ≤ A.length + (nb.length - 9) by omega),
      show A.length + (nb.length - 9) - A.length = nb.length - 9 by omega,
      show A.length + (nb.length - 9) - (A ++ nb).length = 0 by
        simp only [List.length_append]; omega]
    simp
  have hnot : ']' ∉ nb.drop (nb.length - 9) := fun hm => hnb (List.drop_subset _ _ hm)
  have hw9 : (nb.drop (nb.length - 9)).length = 9 := by
    rw [List.length_drop]; omega
  have hfind : (((A ++ nb) ++ [']']).drop (A.length + (nb.length - 9))).findIdx?
      (fun c => c = ']') = some 9 := by
    rw [hwin]
    have h0 := findIdx_after_clean [] (nb.drop (nb.length - 9)) hnot 0
    rw [hw9] at h0
    simpa using h0
  rw [hfind]
  have htake : ((A ++ nb) ++ [']']).take (A.length + (nb.length - 9) + 9) = A ++ nb := by
    rw [show A.length + (nb.length - 9) + 9 = (A ++ nb).length by
      simp only [List.length_append]; omega]
    exact List.take_left _ _
  have hdrop : ((A ++ nb) ++ [']']).drop
      (A.length + (nb.length - 9) + (9 + 2 + raw.length)) = [] :=
    List.drop_eq_nil_of_le (by
      simp only [List.length_append, List.length_cons, List.length_nil]
      omega)
  dsimp only
  rw [htake, hdrop]
  simp

theorem appendToIndex_serialize (l : List jsonCmd) (c : jsonCmd) :
    appendToIndex ⟨serializeIndex l, none⟩ (marshalCmd c) =
      (.ok (), ⟨serializeIndex (l ++ [c]), none⟩) := by
  rcases eq_or_ne l [] with rfl | hl
  · rw [appendToIndex_small _ _ (by decide)]
    have hdrop : (FS.mk (serializeIndex []) none).index.drop ((marshalCmd c).length + 2) = [] :=
      List.drop_eq_nil_of_le (by
        rw [show (FS.mk (serializeIndex []) none).index.length = 2 from rfl]
        omega)
    rw [hdrop]
    simp [serializeIndex, serializeBody]
  · obtain ⟨A, m, hA⟩ := body_tail_shape l hl
    have h1 : serializeIndex l =
        (A ++ (",\"maxNumArgs\":".data ++ intReprL m ++ ['\x7d', '\x7d'])) ++ [']'] := by
      rw [← hA]; rfl
    rw [h1, appendToIndex_patch A _ (marshalCmd c) (nb_no_rbracket m) (nb_length m)]
    have h2 : (A ++ (",\"maxNumArgs\":".data ++ intReprL m ++ ['\x7d', '\x7d'])) ++
        ',' :: marshalCmd c ++ [']'] = serializeIndex (l ++ [c]) := by
      rw [← hA]
      show ('[' :: serializeBody l) ++ ',' :: marshalCmd c ++ [']'] =
        '[' :: serializeBody (l ++ [c]) ++ [']']
      rw [serializeBody_append_one c l hl]
      simp
    rw [h2]

theorem appendSeq_serialize (recs : List jsonCmd) :
    ∀ l : List jsonCmd,
      appendSeq ⟨serializeIndex l, none⟩ recs =
        (.ok (), ⟨serializeIndex (l ++ recs), none⟩) := by
  induction recs with
  | nil => intro l; simp [appendSeq]
  | cons c cs ih =>
    intro l
    rw [appendSeq, appendToIndex_serialize l c]
    dsimp only
    rw [ih (l ++ [c])]
    simp

/-! ## C3: append sequences decode to exactly the appended records -/

/-- C3: starting from an empty index (the empty file or the two-byte
array `[]`), every sequence of append-engine calls, each handed one
serialized record, succeeds, and the resulting file is the serialized
array of exactly the appended records in insertion order — which decodes
back to exactly that record list. Each step preserves all previously
present elements exactly, since step `i` turns the serialized array of
the first `i` records into the serialized array of the first `i + 1`. -/
theorem c3_append_sequences_decode_exact (recs : List jsonCmd)
    (hval : ∀ r ∈ recs, validCmd r = true) :
    (appendSeq ⟨['[', ']'], none⟩ recs = (.ok (), ⟨serializeIndex recs, none⟩)
      ∧ decodeIndex (serializeIndex recs) = .ok recs)
    ∧ (recs ≠ [] → appendSeq ⟨[], none⟩ recs = (.ok (), ⟨serializeIndex recs, none⟩)) := by
  refine ⟨⟨?_, decodeIndex_serializeIndex recs hval⟩, ?_⟩
  · exact appendSeq_serialize recs []
  · intro hne
    cases recs with
    | nil => exact absurd rfl hne
    | cons c cs =>
      rw [appendSeq]
      have hfirst : appendToIndex ⟨[], none⟩ (marshalCmd c) =
          (.ok (), ⟨serializeIndex [c], none⟩) := by
        rw [appendToIndex_small _ _ (by decide)]
        simp [serializeIndex, serializeBody]
      rw [hfirst]
      dsimp only
      rw [appendSeq_serialize cs [c]]
      simp

/-- Closed witness for C3 on a concrete two-record sequence. -/
theorem c3_append_sequences_decode_exact_witness :
    (appendSeq ⟨['[', ']'], none⟩ [recBuild, recX] =
        (.ok (), ⟨serializeIndex [recBuild, recX], none⟩)
      ∧ decodeIndex (serializeIndex [recBuild, recX]) = .ok [recBuild, recX])
    ∧ ([recBuild, recX] ≠ [] → appendSeq ⟨[], none⟩ [recBuild, recX] =
        (.ok (), ⟨serializeIndex [recBuild, recX], none⟩)) :=
  c3_append_sequences_decode_exact [recBuild, recX] (by decide)

/-! ## C9: argument-count bounds are not validated -/

/-- C9 counterexample: `CreateCmd` accepts `minNumArgs = -5`,
`maxNumArgs = 2` — bounds violating `minArgs ≥ 0` — and hands the
serialized record to the append engine, which commits it; `parseCmd`
contains no bounds check at all. -/
theorem c9_bounds_not_validated_counterexample :
    CreateCmd "/w" (fun _ => true) ⟨['[', ']'], none⟩ ["x", "/s.sh", "-5", "2"] =
      (.ok (), ⟨serializeIndex [⟨"x", "/s.sh", ⟨-5, 2⟩⟩], none⟩)
    ∧ boundsOk ⟨"x", "/s.sh", ⟨-5, 2⟩⟩ = false := by
  decide

/-- C9 (amended): `parseCmd` performs no bounds validation. With two
arguments the defaulted record `(minNumArgs, maxNumArgs) = (0, -1)` does
satisfy the documented bounds; with four arguments any in-`int64`-range
integers — including bounds-violating ones — are accepted verbatim into
the record that is then serialized and appended. -/
theorem c9_parse_cmd_bounds_behavior :
    (∀ (wd name spath : String),
      parseCmd wd [name, spath] createDefaultCmd =
        .ok ⟨name, goAbs wd spath, ⟨0, -1⟩⟩
      ∧ boundsOk ⟨name, goAbs wd spath, ⟨0, -1⟩⟩ = true)
    ∧ (∀ (wd name spath : String) (m n : Int),
      isInt64 m = true → isInt64 n = true →
      parseCmd wd [name, spath, String.mk (intReprL m), String.mk (intReprL n)]
        createDefaultCmd = .ok ⟨name, goAbs wd spath, ⟨m, n⟩⟩) := by
  constructor
  · intro wd name spath
    exact ⟨rfl, rfl⟩
  · intro wd name spath m n hm hn
    have h3 := goAtoi_intReprL m hm
    have h4 := goAtoi_intReprL n hn
    simp [parseCmd, h3, h4]

/-- Closed witness for the amended C9 at concrete inputs. -/
theorem c9_parse_cmd_bounds_behavior_witness :
    (parseCmd "/w" ["x", "/s.sh"] createDefaultCmd =
        .ok ⟨"x", goAbs "/w" "/s.sh", ⟨0, -1⟩⟩
      ∧ boundsOk ⟨"x", goAbs "/w" "/s.sh", ⟨0, -1⟩⟩ = true)
    ∧ parseCmd "/w" ["x", "/s.sh", String.mk (intReprL (-5)), String.mk (intReprL 2)]
        createDefaultCmd = .ok ⟨"x", goAbs "/w" "/s.sh", ⟨-5, 2⟩⟩ :=
  ⟨c9_parse_cmd_bounds_behavior.1 "/w" "x" "/s.sh",
    c9_parse_cmd_bounds_behavior.2 "/w" "x" "/s.sh" (-5) 2 (by decide) (by decide)⟩

/-! ## C7: the tidy collision probe and its full-path stem -/

/-- C7 counterexample: tidying a record for `/src/run.sh` whose base
name `run.sh` is taken renames it to `/r/cmd/unix/src/run1.sh` — the
probe stem is the full path minus extension, so the result is NOT the
managed directory joined with `run1.sh` (which would be
`/r/cmd/unix/run1.sh`): the record's new path still contains the old
source directory, nested inside the managed directory. -/
theorem c7_tidy_probe_counterexample :
    (tidyFn "/r/cmd/unix" ["run.sh"] (fun _ _ => true)
        ⟨"r", "/src/run.sh", ⟨0, -1⟩⟩ []).2.1.Script = "/r/cmd/unix/src/run1.sh"
    ∧ goJoin2 "/r/cmd/unix" "run1.sh" = "/r/cmd/unix/run1.sh"
    ∧ (tidyFn "/r/cmd/unix" ["run.sh"] (fun _ _ => true)
        ⟨"r", "/src/run.sh", ⟨0, -1⟩⟩ []).2.1.Script ≠ "/r/cmd/unix/run1.sh" := by
  decide

/-- C7 (amended): on a base-name collision the tidy callback probes
candidates built from the FULL script path with the extension cut off
(`tidyProbeStem`), not from the base filename; when the first candidate
`stem ++ "1" ++ ext` is free and the rename succeeds, the record's path
becomes the managed directory joined with that candidate — so the old
parent directories reappear under the managed directory. -/
theorem c7_tidy_collision_probe_behavior
    (scriptDp : String) (taken : List String) (renameOk : String → String → Bool)
    (cmd : jsonCmd) (log : List TidyEvent)
    (hpfx : strHasPfx cmd.Script scriptDp = false)
    (hcol : goBase cmd.Script ∈ taken)
    (hfree : tidyProbeName1 cmd.Script ∉ taken)
    (hren : renameOk cmd.Script (goJoin2 scriptDp (tidyProbeName1 cmd.Script)) = true) :
    tidyFn scriptDp taken renameOk cmd log =
      ((true, false, none),
        { cmd with Script := goJoin2 scriptDp (tidyProbeName1 cmd.Script) },
        log ++ [TidyEvent.renamed (goBase cmd.Script) (tidyProbeName1 cmd.Script)]) := by
  have hprobe : probeName taken
      (String.mk (cmd.Script.data.take
        (cmd.Script.data.length - (goExt (goBase cmd.Script)).data.length)))
      (goExt (goBase cmd.Script)) 1 (taken.length + 1) = tidyProbeName1 cmd.Script := by
    rw [probeName]
    have h1 : (String.mk (cmd.Script.data.take
        (cmd.Script.data.length - (goExt (goBase cmd.Script)).data.length)) ++
          String.mk (natReprL 1) ++ goExt (goBase cmd.Script)) =
        tidyProbeName1 cmd.Script := by
      rw [show String.mk (natReprL 1) = "1" from by decide]
      rfl
    rw [h1, if_neg hfree]
  unfold tidyFn
  rw [if_neg (by simp [hpfx])]
  dsimp only
  rw [if_pos hcol, hprobe]
  dsimp only
  rw [if_pos hren]

/-- Closed witness for the amended C7: the spec's own two-`run.sh`
scenario, showing the second record lands at
`/r/cmd/unix/src/run1.sh`. -/
theorem c7_tidy_collision_probe_behavior_witness :
    tidyFn "/r/cmd/unix" ["run.sh"] (fun _ _ => true)
        ⟨"r", "/src/run.sh", ⟨0, -1⟩⟩ [] =
      ((true, false, none),
        { (⟨"r", "/src/run.sh", ⟨0, -1⟩⟩ : jsonCmd) with
            Script := goJoin2 "/r/cmd/unix" (tidyProbeName1 "/src/run.sh") },
        [] ++ [TidyEvent.renamed (goBase "/src/run.sh") (tidyProbeName1 "/src/run.sh")]) :=
  c7_tidy_collision_probe_behavior "/r/cmd/unix" ["run.sh"] (fun _ _ => true)
    ⟨"r", "/src/run.sh", ⟨0, -1⟩⟩ [] (by decide) (by decide) (by decide) rfl

/-! ## C4: a failed tidy rename aborts the whole batch -/

/-- C4 counterexample: a Tidy run over two records in which the very
first record's filesystem rename fails does NOT continue the batch — it
returns the rename error and leaves the index untouched (no rewrite
commits), contradicting the claimed non-fatal per-record policy. -/
theorem c4_tidy_rename_failure_aborts_counterexample :
    (TidyCmd "/r" [] (fun _ _ => false)
        ⟨serializeIndex [⟨"a", "/s/a.sh", ⟨0, -1⟩⟩, ⟨"b", "/s/b.sh", ⟨0, -1⟩⟩], none⟩).1 =
      .error (.renameFailed "/s/a.sh" "/r/a.sh")
    ∧ (TidyCmd "/r" [] (fun _ _ => false)
        ⟨serializeIndex [⟨"a", "/s/a.sh", ⟨0, -1⟩⟩, ⟨"b", "/s/b.sh", ⟨0, -1⟩⟩], none⟩).2.1 =
      ⟨serializeIndex [⟨"a", "/s/a.sh", ⟨0, -1⟩⟩, ⟨"b", "/s/b.sh", ⟨0, -1⟩⟩], none⟩ := by
  decide

/-- C4 (amended): a failed rename IS reported to the operator — the
callback records a move-failed message — but it is fatal to the batch:
the callback returns the rename error for that record's old and intended
new path, `modOperation` aborts with that error, no rewrite commits, and
the index bytes stay exactly as before with the temporary file
removed. -/
theorem c4_tidy_rename_failure_abortive :
    (∀ (scriptDp : String) (taken : List String) (renameOk : String → String → Bool)
        (fs : FS) (recs : List jsonCmd) (e : GoErr),
      decodeIndex fs.index = .ok recs →
      modRunsToError (tidyFn scriptDp taken renameOk) recs [] = some e →
      (TidyCmd scriptDp taken renameOk fs).1 = .error e ∧
        (TidyCmd scriptDp taken renameOk fs).2.1 = { index := fs.index, tmp := none })
    ∧ (∀ (scriptDp : String) (taken : List String) (renameOk : String → String → Bool)
        (cmd : jsonCmd) (log : List TidyEvent) (inc esc : Bool) (e : GoErr)
        (cmd' : jsonCmd) (log' : List TidyEvent),
      tidyFn scriptDp taken renameOk cmd log = ((inc, esc, some e), cmd', log') →
      ∃ p, e = .renameFailed cmd.Script p ∧ cmd' = cmd ∧
        ∃ s, TidyEvent.moveFailed s p ∈ log') := by
  constructor
  · intro scriptDp taken renameOk fs recs e hdec herr
    obtain ⟨st', h⟩ := modOperation_err (tidyFn scriptDp taken renameOk) [] fs recs e hdec herr
    unfold TidyCmd
    rw [h]
    exact ⟨rfl, rfl⟩
  · intro scriptDp taken renameOk cmd log inc esc e cmd' log' h
    unfold tidyFn at h
    by_cases hp : strHasPfx cmd.Script scriptDp = true
    · rw [if_pos hp] at h
      simp at h
    · rw [if_neg hp] at h
      dsimp only at h
      split at h
      · split at h
        · simp at h
        · simp only [Prod.mk.injEq] at h
          obtain ⟨⟨hinc, hesc, he⟩, hcmd, hlog⟩ := h
          injection he with he'
          exact ⟨_, he'.symm, hcmd.symm, _,
            hlog ▸ List.mem_append_right _ (List.mem_singleton.mpr rfl)⟩
      · split at h
        · simp at h
        · simp only [Prod.mk.injEq] at h
          obtain ⟨⟨hinc, hesc, he⟩, hcmd, hlog⟩ := h
          injection he with he'
          exact ⟨_, he'.symm, hcmd.symm, _,
            hlog ▸ List.mem_append_right _ (List.mem_singleton.mpr rfl)⟩

/-- Closed witness for the amended C4: the counterexample run, checked
through the theorem — the first record's rename failure aborts with the
rename error, the index is unchanged, and the callback's log carries the
move-failed report. -/
theorem c4_tidy_rename_failure_abortive_witness :
    ((TidyCmd "/r" [] (fun _ _ => false) ⟨serializeIndex [recBuild], none⟩).1 =
        .error (.renameFailed "/s/b.sh" "/r/b.sh") ∧
      (TidyCmd "/r" [] (fun _ _ => false) ⟨serializeIndex [recBuild], none⟩).2.1 =
        { index := (⟨serializeIndex [recBuild], none⟩ : FS).index, tmp := none })
    ∧ ∃ p, GoErr.renameFailed "/s/b.sh" "/r/b.sh" = .renameFailed recBuild.Script p ∧
        recBuild = recBuild ∧
        ∃ s, TidyEvent.moveFailed s p ∈ ([TidyEvent.moveFailed "b.sh" "/r/b.sh"] : List TidyEvent) :=
  ⟨c4_tidy_rename_failure_abortive.1 "/r" [] (fun _ _ => false)
      ⟨serializeIndex [recBuild], none⟩ [recBuild] (.renameFailed "/s/b.sh" "/r/b.sh")
      (by decide) (by decide),
    c4_tidy_rename_failure_abortive.2 "/r" [] (fun _ _ => false) recBuild []
      true false (.renameFailed "/s/b.sh" "/r/b.sh") recBuild
      [TidyEvent.moveFailed "b.sh" "/r/b.sh"] (by decide)⟩

/-! ## C8 machinery: the all-keep modify callback -/

theorem parseCmd_four (wd name spath : String) (m n : Int) (cmd0 : jsonCmd)
    (hm : isInt64 m = true) (hn : isInt64 n = true) :
    parseCmd wd [name, spath, String.mk (intReprL m), String.mk (intReprL n)] cmd0 =
      .ok ⟨name, goAbs wd spath, ⟨m, n⟩⟩ := by
  have h3 := goAtoi_intReprL m hm
  have h4 := goAtoi_intReprL n hn
  simp [parseCmd, h3, h4]

theorem keep_getD (ua : List String) (hall : ∀ u ∈ ua, u = "_") :
    ∀ j : Nat, j < ua.length → ua.getD j "" = "_" := by
  induction ua with
  | nil => intro j hj; simp at hj
  | cons a t ih =>
    intro j hj
    cases j with
    | zero => simpa using hall a (by simp)
    | succ j' =>
      rw [List.getD_cons_succ]
      exact ih (fun u hu => hall u (by simp [hu])) j' (by simpa using hj)

theorem keep_guard (ua : List String) (hall : ∀ u ∈ ua, u = "_") (i j : Nat)
    (hji : j < i) :
    (decide (i ≤ ua.length) && decide (ua.getD j "" ≠ "_")) = false := by
  by_cases hj : j < ua.length
  · rw [keep_getD ua hall j hj]
    simp
  · have hle : ¬(i ≤ ua.length) := by omega
    simp [hle]

theorem modifyFn_keep (wd name : String) (ua : List String) (hne : ua ≠ [])
    (hall : ∀ u ∈ ua, u = "_") (r : jsonCmd) (hit : Bool)
    (hv : validCmd r = true)
    (habs : r.Name = name → goAbs wd r.Script = r.Script) :
    modifyFn wd name ua r hit = ((true, false, none), r, hit || (r.Name == name)) := by
  by_cases hn : r.Name = name
  · have h0 : ua.getD 0 "" = "_" := keep_getD ua hall 0 (List.length_pos.mpr hne)
    have hv' : isInt64 r.Meta.MinNumArgs = true ∧ isInt64 r.Meta.MaxNumArgs = true := by
      unfold validCmd at hv
      rw [Bool.and_eq_true] at hv
      exact hv
    have hmin := hv'.1
    have hmax := hv'.2
    unfold modifyFn
    rw [if_neg (not_not_intro hn)]
    dsimp only
    rw [h0, if_neg (not_not_intro rfl),
      keep_guard ua hall 2 1 (by omega), keep_guard ua hall 3 2 (by omega),
      keep_guard ua hall 4 3 (by omega)]
    simp only [Bool.false_eq_true, if_false]
    rw [parseCmd_four wd r.Name r.Script _ _ r hmin hmax]
    rw [habs hn]
    have hb : (r.Name == name) = true := by simp [hn]
    rw [hb, Bool.or_true]
  · unfold modifyFn
    rw [if_pos hn]
    have hb : (r.Name == name) = false := by simp [hn]
    rw [hb, Bool.or_false]

theorem modifyFn_keep_run (wd name : String) (ua : List String) (hne : ua ≠ [])
    (hall : ∀ u ∈ ua, u = "_") :
    ∀ (recs : List jsonCmd) (hit : Bool),
      (∀ r ∈ recs, validCmd r = true) →
      (∀ r ∈ recs, r.Name = name → goAbs wd r.Script = r.Script) →
      runOk (modifyFn wd name ua) recs hit = true
      ∧ modOuts (modifyFn wd name ua) recs hit = recs
      ∧ modFinalSt (modifyFn wd name ua) recs hit =
          (hit || recs.any (fun r => r.Name == name)) := by
  intro recs
  induction recs with
  | nil =>
    intro hit _ _
    exact ⟨rfl, rfl, by simp [modFinalSt]⟩
  | cons c cs ih =>
    intro hit hval habs
    have hk := modifyFn_keep wd name ua hne hall c hit (hval c (by simp))
      (habs c (by simp))
    obtain ⟨ih1, ih2, ih3⟩ := ih (hit || (c.Name == name))
      (fun r hr => hval r (by simp [hr])) (fun r hr h => habs r (by simp [hr]) h)
    refine ⟨?_, ?_, ?_⟩
    · rw [runOk, hk]
      simpa using ih1
    · rw [modOuts, hk]
      dsimp only
      simp [ih2]
    · rw [modFinalSt, hk]
      dsimp only
      rw [ih3]
      simp [Bool.or_assoc]

/-! ## C8: sentinel-only modify -/

/-- C8 counterexample: sentinel-only Modify is NOT a no-op on every
index containing a matching record. The matched record is rebuilt
through `parseCmd`, which re-runs `filepath.Abs` on the kept script
path; on a record whose stored path `/a/../b` is not a fixed point of
`Abs` the run succeeds but the decoded record set changes — the path
becomes the cleaned `/b`. -/
theorem c8_keep_sentinel_modify_counterexample :
    (ModifyCmd "/w" ⟨serializeIndex [recX], none⟩ ["x", "_"]).1 = .ok ()
    ∧ decodeIndex ((ModifyCmd "/w" ⟨serializeIndex [recX], none⟩ ["x", "_"]).2.index) =
        .ok [⟨"x", "/b", ⟨2, 7⟩⟩]
    ∧ decodeIndex (serializeIndex [recX]) = .ok [recX]
    ∧ recX ≠ ⟨"x", "/b", ⟨2, 7⟩⟩ := by
  decide

/-- C8 (amended): Modify with a nonempty all-`"_"` update list succeeds
whenever some record matches, and is a no-op on the decoded record set
PROVIDED every matched record's stored script path is a fixed point of
`filepath.Abs` (any cleaned absolute path qualifies): the committed file
is again the serialization of the same records and decodes to them. -/
theorem c8_keep_sentinel_modify (wd : String) (fs : FS) (name : String)
    (ua : List String) (recs : List jsonCmd)
    (hne : ua ≠ []) (hall : ∀ u ∈ ua, u = "_")
    (hdec : decodeIndex fs.index = .ok recs)
    (hval : ∀ r ∈ recs, validCmd r = true)
    (hmatch : recs.any (fun r => r.Name == name) = true)
    (habs : ∀ r ∈ recs, r.Name = name → goAbs wd r.Script = r.Script) :
    ModifyCmd wd fs (name :: ua) = (.ok (), { index := serializeIndex recs, tmp := none })
    ∧ decodeIndex (serializeIndex recs) = .ok recs := by
  obtain ⟨hrun, houts, hfin⟩ := modifyFn_keep_run wd name ua hne hall recs false hval habs
  have hmo := modOperation_run (modifyFn wd name ua) false fs recs hdec hrun
  rw [houts, hfin] at hmo
  constructor
  · cases ua with
    | nil => exact absurd rfl hne
    | cons u us =>
      simp only [ModifyCmd]
      rw [hmo]
      dsimp only
      rw [if_neg (by simp [hmatch])]
  · exact decodeIndex_serializeIndex recs hval

/-- Closed witness for the amended C8: a matched record with a cleaned
absolute path is left exactly as it was. -/
theorem c8_keep_sentinel_modify_witness :
    ModifyCmd "/w" ⟨serializeIndex [recBuild], none⟩ ["build", "_"] =
        (.ok (), { index := serializeIndex [recBuild], tmp := none })
    ∧ decodeIndex (serializeIndex [recBuild]) = .ok [recBuild] :=
  c8_keep_sentinel_modify "/w" ⟨serializeIndex [recBuild], none⟩ "build" ["_"] [recBuild]
    (by decide) (by decide) (by decide) (by decide) (by decide) (by decide)

/-! ## C6 machinery: the delete callback and its matched-name state -/

theorem addUnique_mem (l : List String) (y x : String) :
    x ∈ addUnique l y ↔ x ∈ l ∨ x = y := by
  unfold addUnique
  split
  · constructor
    · exact Or.inl
    · rintro (h | rfl)
      · exact h
      · assumption
  · simp

theorem addUnique_nodup (l : List String) (y : String) (h : l.Nodup) :
    (addUnique l y).Nodup := by
  unfold addUnique
  split
  · exact h
  · simp [List.nodup_append, h]
    intro hy
    simp_all

theorem foldl_addUnique_mem (args : List String) :
    ∀ (acc : List String) (x : String),
      x ∈ args.foldl addUnique acc ↔ x ∈ acc ∨ x ∈ args := by
  induction args with
  | nil => intro acc x; simp
  | cons a as ih =>
    intro acc x
    rw [List.foldl_cons, ih, addUnique_mem]
    simp
    tauto

theorem foldl_addUnique_nodup (args : List String) :
    ∀ acc : List String, acc.Nodup → (args.foldl addUnique acc).Nodup := by
  induction args with
  | nil => intro acc h; exact h
  | cons a as ih => intro acc h; exact ih _ (addUnique_nodup acc a h)

theorem deleteFn_no_abort (excl : List String) :
    ∀ c s, ((deleteFn excl) c s).1.2.1 = false ∧ ((deleteFn excl) c s).1.2.2 = none := by
  intro c s
  unfold deleteFn
  split <;> exact ⟨rfl, rfl⟩

theorem deleteFn_outs (excl : List String) :
    ∀ (recs : List jsonCmd) (rm : List String),
      modOuts (deleteFn excl) recs rm = recs.filter (fun r => r.Name ∉ excl) := by
  intro recs
  induction recs with
  | nil => intro rm; rfl
  | cons c cs ih =>
    intro rm
    by_cases hc : c.Name ∈ excl
    · have hfn : (deleteFn excl) c rm = ((false, false, none), c, addUnique rm c.Name) := by
        unfold deleteFn
        rw [if_pos hc]
      rw [modOuts, hfn]
      dsimp only
      rw [if_neg (show ¬(false = true) by decide), ih (addUnique rm c.Name)]
      simp [List.filter_cons, hc]
    · have hfn : (deleteFn excl) c rm = ((true, false, none), c, rm) := by
        unfold deleteFn
        rw [if_neg hc]
      rw [modOuts, hfn]
      dsimp only
      rw [if_pos rfl, ih rm]
      simp [List.filter_cons, hc]

theorem deleteFn_rm_mem (excl : List String) :
    ∀ (recs : List jsonCmd) (rm : List String) (x : String),
      x ∈ modFinalSt (deleteFn excl) recs rm ↔
        x ∈ rm ∨ (x ∈ excl ∧ ∃ r ∈ recs, r.Name = x) := by
  intro recs
  induction recs with
  | nil => intro rm x; simp [modFinalSt]
  | cons c cs ih =>
    intro rm x
    by_cases hc : c.Name ∈ excl
    · have hfn : (deleteFn excl) c rm = ((false, false, none), c, addUnique rm c.Name) := by
        unfold deleteFn
        rw [if_pos hc]
      rw [modFinalSt, hfn]
      dsimp only
      rw [ih (addUnique rm c.Name) x, addUnique_mem]
      constructor
      · rintro ((h | rfl) | ⟨hx, r, hr, hrx⟩)
        · exact .inl h
        · exact .inr ⟨hc, c, by simp, rfl⟩
        · exact .inr ⟨hx, r, by simp [hr], hrx⟩
      · rintro (h | ⟨hx, r, hr, hrx⟩)
        · exact .inl (.inl h)
        · rcases List.mem_cons.mp hr with rfl | hr'
          · exact .inl (.inr hrx.symm)
          · exact .inr ⟨hx, r, hr', hrx⟩
    · have hfn : (deleteFn excl) c rm = ((true, false, none), c, rm) := by
        unfold deleteFn
        rw [if_neg hc]
      rw [modFinalSt, hfn]
      dsimp only
      rw [ih rm x]
      constructor
      · rintro (h | ⟨hx, r, hr, hrx⟩)
        · exact .inl h
        · exact .inr ⟨hx, r, by simp [hr], hrx⟩
      · rintro (h | ⟨hx, r, hr, hrx⟩)
        · exact .inl h
        · rcases List.mem_cons.mp hr with rfl | hr'
          · exact absurd (hrx.symm ▸ hx) hc
          · exact .inr ⟨hx, r, hr', hrx⟩

theorem deleteFn_rm_nodup (excl : List String) :
    ∀ (recs : List jsonCmd) (rm : List String), rm.Nodup →
      (modFinalSt (deleteFn excl) recs rm).Nodup := by
  intro recs
  induction recs with
  | nil => intro rm h; exact h
  | cons c cs ih =>
    intro rm h
    by_cases hc : c.Name ∈ excl
    · have hfn : (deleteFn excl) c rm = ((false, false, none), c, addUnique rm c.Name) := by
        unfold deleteFn
        rw [if_pos hc]
      rw [modFinalSt, hfn]
      exact ih _ (addUnique_nodup rm c.Name h)
    · have hfn : (deleteFn excl) c rm = ((true, false, none), c, rm) := by
        unfold deleteFn
        rw [if_neg hc]
      rw [modFinalSt, hfn]
      exact ih _ h

/-! ## C6: delete removes exactly the named records -/

/-- C6: for every index file decoding as a record stream and every
nonempty name list, `DeleteCmd` succeeds, commits exactly the records
whose names are NOT in the list (in order, so nothing else changes: a
name matching no record removes nothing and the decoded content is
unchanged), and the reported-unmatched list holds exactly the requested
names that matched no record — while the call still returns success. -/
theorem c6_delete_exact_removal (fs : FS) (args : List String) (recs : List jsonCmd)
    (hargs : args ≠ [])
    (hdec : decodeIndex fs.index = .ok recs)
    (hval : ∀ r ∈ recs, validCmd r = true) :
    ∃ rep, DeleteCmd fs args =
        (.ok (), ⟨serializeIndex (recs.filter (fun r => r.Name ∉ args)), none⟩, rep)
      ∧ decodeIndex (serializeIndex (recs.filter (fun r => r.Name ∉ args))) =
          .ok (recs.filter (fun r => r.Name ∉ args))
      ∧ ∀ x : String, x ∈ rep ↔ (x ∈ args ∧ ∀ r ∈ recs, r.Name ≠ x) := by
  cases args with
  | nil => exact absurd rfl hargs
  | cons a as =>
    have hmem : ∀ x, x ∈ (a :: as).foldl addUnique [] ↔ x ∈ a :: as := by
      intro x
      rw [foldl_addUnique_mem]
      simp
    have hnodup : ((a :: as).foldl addUnique []).Nodup :=
      foldl_addUnique_nodup _ [] (by simp)
    have hrun := runOk_of_never (deleteFn ((a :: as).foldl addUnique []))
      (deleteFn_no_abort _) recs []
    have hmo := modOperation_run (deleteFn ((a :: as).foldl addUnique [])) [] fs recs
      hdec hrun
    have houts := deleteFn_outs ((a :: as).foldl addUnique []) recs []
    have hfilter : recs.filter (fun r => r.Name ∉ (a :: as).foldl addUnique []) =
        recs.filter (fun r => r.Name ∉ a :: as) := by
      apply List.filter_congr
      intro r hr
      rw [decide_eq_decide]
      exact not_congr (hmem r.Name)
    rw [houts, hfilter] at hmo
    have h2 : ∀ y, y ∈ modFinalSt (deleteFn ((a :: as).foldl addUnique [])) recs [] ↔
        y ∈ (a :: as).foldl addUnique [] ∧ ∃ r ∈ recs, r.Name = y := by
      intro y
      have h := deleteFn_rm_mem ((a :: as).foldl addUnique []) recs [] y
      simpa using h
    have hndp : (modFinalSt (deleteFn ((a :: as).foldl addUnique [])) recs []).Nodup :=
      deleteFn_rm_nodup _ recs [] (by simp)
    refine ⟨if (modFinalSt (deleteFn ((a :: as).foldl addUnique [])) recs []).length <
          ((a :: as).foldl addUnique []).length
        then ((a :: as).foldl addUnique []).filter
          (fun k => k ∉ modFinalSt (deleteFn ((a :: as).foldl addUnique [])) recs [])
        else [], ?_, ?_, ?_⟩
    · simp only [DeleteCmd]
      rw [hmo]
    · exact decodeIndex_serializeIndex _ (fun r hr => hval r (List.mem_of_mem_filter hr))
    · intro x
      by_cases hguard :
          (modFinalSt (deleteFn ((a :: as).foldl addUnique [])) recs []).length <
            ((a :: as).foldl addUnique []).length
      · rw [if_pos hguard, List.mem_filter]
        constructor
        · rintro ⟨hx, hnot⟩
          have hnotrm : x ∉ modFinalSt (deleteFn ((a :: as).foldl addUnique [])) recs [] := by
            simpa using hnot
          refine ⟨(hmem x).mp hx, ?_⟩
          intro r hr heq
          exact hnotrm ((h2 x).mpr ⟨hx, r, hr, heq⟩)
        · rintro ⟨hx, hall2⟩
          refine ⟨(hmem x).mpr hx, ?_⟩
          simp only [decide_eq_true_eq]
          intro hin
          obtain ⟨_, r, hr, hrx⟩ := (h2 x).mp hin
          exact hall2 r hr hrx
      · rw [if_neg hguard]
        simp only [List.not_mem_nil, false_iff]
        rintro ⟨hx, hall2⟩
        apply hguard
        have hxE : x ∈ (a :: as).foldl addUnique [] := (hmem x).mpr hx
        have hxrm : x ∉ modFinalSt (deleteFn ((a :: as).foldl addUnique [])) recs [] := by
          intro hin
          obtain ⟨_, r, hr, hrx⟩ := (h2 x).mp hin
          exact hall2 r hr hrx
        have hfsub : (modFinalSt (deleteFn ((a :: as).foldl addUnique [])) recs []).toFinset ⊆
            ((a :: as).foldl addUnique []).toFinset := by
          intro y hy
          rw [List.mem_toFinset] at hy ⊢
          exact ((h2 y).mp hy).1
        have hss : (modFinalSt (deleteFn ((a :: as).foldl addUnique [])) recs []).toFinset ⊂
            ((a :: as).foldl addUnique []).toFinset :=
          (Finset.ssubset_iff_of_subset hfsub).mpr
            ⟨x, List.mem_toFinset.mpr hxE, fun hc => hxrm (List.mem_toFinset.mp hc)⟩
        have hcard := Finset.card_lt_card hss
        rw [List.toFinset_card_of_nodup hndp, List.toFinset_card_of_nodup hnodup] at hcard
        exact hcard

/-- Closed witness for C6: deleting `build` and the absent `ghost` from a
two-record index removes exactly the `build` record, decodes back to the
remaining record, and reports exactly `ghost` as unmatched. -/
theorem c6_delete_exact_removal_witness :
    ∃ rep, DeleteCmd ⟨serializeIndex [recBuild, recX], none⟩ ["build", "ghost"] =
        (.ok (), ⟨serializeIndex
            ([recBuild, recX].filter (fun r => r.Name ∉ ["build", "ghost"])), none⟩, rep)
      ∧ decodeIndex (serializeIndex
            ([recBuild, recX].filter (fun r => r.Name ∉ ["build", "ghost"]))) =
          .ok ([recBuild, recX].filter (fun r => r.Name ∉ ["build", "ghost"]))
      ∧ ∀ x : String, x ∈ rep ↔
          (x ∈ ["build", "ghost"] ∧ ∀ r ∈ [recBuild, recX], r.Name ≠ x) :=
  c6_delete_exact_removal ⟨serializeIndex [recBuild, recX], none⟩ ["build", "ghost"]
    [recBuild, recX] (by decide) (by decide) (by decide)
